import Mathlib

set_option maxRecDepth 100000

/-!
Verification of the Sudoku engine of `terminal-sudoku` (`src/game.py`).

The grid is a list of rows of natural numbers, `0` marking an empty cell,
exactly as the Python lists of lists.  Randomness (`random.shuffle`,
`random.randint`) is modelled by oracle inputs: a candidate-order stream for
the solver and explicit permutation / index / coordinate inputs for the
generator, each constrained by a validity hypothesis describing precisely the
values the library calls can produce.
-/

namespace Sudoku

/-- A board: a list of rows, each a list of naturals; `0` is empty.
Mirrors the Python `list[list[int]]`. -/
abbrev Grid := List (List Nat)

/-- `board[row][col]`, with `0` out of bounds (all real accesses are in
bounds on 9x9 grids). -/
def cell (b : Grid) (r c : Nat) : Nat := (b.getD r []).getD c 0

/-- `board[row][col] = v`: functional update of one cell, the pure image of
the in-place assignment. -/
def setCell (b : Grid) (r c v : Nat) : Grid := b.set r ((b.getD r []).set c v)

/-- `Sudoku._possible(row, col, num, board)` (src/game.py:232-254): scans the
row, the column and the 3x3 square with origin `(row/3*3, col/3*3)`, skipping
the queried cell itself, and returns false iff `num` is found. -/
def possible (b : Grid) (row col num : Nat) : Bool :=
  ((List.range 9).all fun c => !(cell b row c == num && col != c)) &&
  ((List.range 9).all fun r => !(cell b r col == num && row != r)) &&
  (let srow := row / 3 * 3
   let scol := col / 3 * 3
   (List.range 3).all fun i => (List.range 3).all fun j =>
     !(cell b (srow + i) (scol + j) == num &&
       !(srow + i == row && scol + j == col)))

/-- Inner loop of `Sudoku._find_empty`: first zero of row `r` among the
listed column indices. -/
def findEmptyInRow (b : Grid) (r : Nat) : List Nat → Option (Nat × Nat)
  | [] => none
  | c :: cs => if cell b r c = 0 then some (r, c) else findEmptyInRow b r cs

/-- Outer loop of `Sudoku._find_empty`: rows are scanned in the given order,
each row left to right. -/
def findEmptyRows (b : Grid) : List Nat → Option (Nat × Nat)
  | [] => none
  | r :: rs =>
    match findEmptyInRow b r (List.range 9) with
    | some p => some p
    | none => findEmptyRows b rs

/-- `Sudoku._find_empty` (src/game.py:256-264): first empty cell in row-major
order, or `none` when the grid is full. -/
def findEmpty (b : Grid) : Option (Nat × Nat) := findEmptyRows b (List.range 9)

/-- Well-formed 9x9 board with entries in `0..9`. -/
def isGrid (b : Grid) : Prop :=
  b.length = 9 ∧ (∀ row ∈ b, row.length = 9) ∧
    ∀ r, r < 9 → ∀ c, c < 9 → cell b r c ≤ 9

instance (b : Grid) : Decidable (isGrid b) := by
  unfold isGrid; infer_instance

/-- `(r', c')` is in the same row, column or 3x3 block as `(r, c)`. -/
def sees (r c r' c' : Nat) : Prop :=
  r' = r ∨ c' = c ∨ (r' / 3 = r / 3 ∧ c' / 3 = c / 3)

instance (r c r' c' : Nat) : Decidable (sees r c r' c') := by
  unfold sees; infer_instance

/-- No non-zero value is duplicated along a row, a column or a block: every
filled cell still passes `possible` for its own value. -/
def consistent (b : Grid) : Prop :=
  ∀ r, r < 9 → ∀ c, c < 9 → cell b r c ≠ 0 → possible b r c (cell b r c) = true

instance (b : Grid) : Decidable (consistent b) := by
  unfold consistent; infer_instance

/-- Every cell of the 9x9 area is filled. -/
def completeG (b : Grid) : Prop := ∀ r, r < 9 → ∀ c, c < 9 → cell b r c ≠ 0

instance (b : Grid) : Decidable (completeG b) := by
  unfold completeG; infer_instance

/-- Every cell passes `possible` for its current value. -/
def legalG (b : Grid) : Prop :=
  ∀ r, r < 9 → ∀ c, c < 9 → possible b r c (cell b r c) = true

instance (b : Grid) : Decidable (legalG b) := by
  unfold legalG; infer_instance

/-- `g` keeps every filled cell of `b`. -/
def extendsG (b g : Grid) : Prop :=
  ∀ r, r < 9 → ∀ c, c < 9 → cell b r c ≠ 0 → cell g r c = cell b r c

instance (b g : Grid) : Decidable (extendsG b g) := by
  unfold extendsG; infer_instance

/-- `g` is a legal completion of `b`: a well-formed, fully filled, rule-abiding
grid that agrees with `b` on all of `b`'s filled cells. -/
def Completion (b g : Grid) : Prop :=
  isGrid g ∧ completeG g ∧ legalG g ∧ extendsG b g

instance (b g : Grid) : Decidable (Completion b g) := by
  unfold Completion; infer_instance

theorem cell_eq (b : Grid) (r c : Nat) : cell b r c = (b[r]?.getD [])[c]?.getD 0 := by
  simp [cell, List.getD_eq_getElem?_getD]

theorem set_self_of_getElem? {α : Type} (l : List α) (i : Nat) (x : α)
    (h : l[i]? = some x) : l.set i x = l := by
  apply List.ext_getElem?
  intro n
  rw [List.getElem?_set]
  split
  · rename_i hn
    subst hn
    split
    · exact h.symm
    · rename_i hlen
      rw [List.getElem?_eq_none_iff.2 (by omega)] at h
      cases h
  · rfl

theorem cell_setCell_ne (b : Grid) (r c v r' c' : Nat) (h : r' ≠ r ∨ c' ≠ c) :
    cell (setCell b r c v) r' c' = cell b r' c' := by
  simp only [cell_eq, setCell]
  by_cases hr : r' = r
  · subst hr
    have hc : c' ≠ c := by tauto
    by_cases hlen : r' < b.length
    · rw [List.getElem?_set_eq_of_lt _ hlen]
      simp only [Option.getD_some]
      rw [List.getElem?_set_ne (fun e => hc e.symm)]
      rw [List.getD_eq_getElem?_getD]
    · have h1 : (b.set r' ((b.getD r' []).set c v))[r']? = none := by
        rw [List.getElem?_eq_none_iff, List.length_set]; omega
      have h2 : b[r']? = none := by
        rw [List.getElem?_eq_none_iff]; omega
      rw [h1, h2]
  · rw [List.getElem?_set_ne (fun e => hr e.symm)]

theorem cell_setCell_self (b : Grid) (r c v : Nat)
    (hr : r < b.length) (hc : c < (b.getD r []).length) :
    cell (setCell b r c v) r c = v := by
  simp only [cell_eq, setCell]
  rw [List.getElem?_set_eq_of_lt _ hr]
  simp only [Option.getD_some]
  rw [List.getElem?_set_eq_of_lt _ hc]
  rfl

theorem setCell_zero_of_cell_zero (b : Grid) (r c : Nat) (h : cell b r c = 0) :
    setCell b r c 0 = b := by
  rw [cell_eq] at h
  unfold setCell
  by_cases hr : r < b.length
  · have hrow : b[r]? = some b[r] := List.getElem?_eq_getElem hr
    have hgetD : b.getD r [] = b[r] := by
      rw [List.getD_eq_getElem?_getD, hrow]
      rfl
    rw [hrow] at h
    simp only [Option.getD_some] at h
    have hset : (b.getD r []).set c 0 = b.getD r [] := by
      rw [hgetD]
      by_cases hcl : c < (b[r]).length
      · apply set_self_of_getElem?
        rw [List.getElem?_eq_getElem hcl]
        rw [List.getElem?_eq_getElem hcl] at h
        simp only [Option.getD_some] at h
        rw [h]
      · exact List.set_eq_of_length_le (by omega)
    rw [hset, hgetD]
    exact set_self_of_getElem? _ _ _ hrow
  · exact List.set_eq_of_length_le (by omega)

theorem all_congr' {α : Type} {l : List α} {p q : α → Bool}
    (h : ∀ x ∈ l, p x = q x) : l.all p = l.all q := by
  induction l with
  | nil => rfl
  | cons a l ih =>
    simp only [List.all_cons]
    rw [h a (by simp), ih fun x hx => h x (by simp [hx])]

/-- `possible` at `(r, c)` never looks at the cell `(r, c)` itself, so
rewriting that cell does not change it. -/
theorem possible_setCell_self (b : Grid) (r c v n : Nat) :
    possible (setCell b r c v) r c n = possible b r c n := by
  unfold possible
  congr 1
  · congr 1
    · apply all_congr'
      intro c' _
      by_cases hc : c' = c
      · subst hc; simp
      · rw [cell_setCell_ne _ _ _ _ _ _ (Or.inr hc)]
    · apply all_congr'
      intro r' _
      by_cases hr : r' = r
      · subst hr; simp
      · rw [cell_setCell_ne _ _ _ _ _ _ (Or.inl hr)]
  · apply all_congr'
    intro i _
    apply all_congr'
    intro j _
    by_cases h : r / 3 * 3 + i = r ∧ c / 3 * 3 + j = c
    · rw [h.1, h.2]; simp
    · have h' : r / 3 * 3 + i ≠ r ∨ c / 3 * 3 + j ≠ c := by tauto
      rw [cell_setCell_ne _ _ _ _ _ _ h']

/-- Propositional reading of the three scan loops of `_possible`. -/
theorem possible_eq_true_prop (b : Grid) (r c n : Nat) :
    possible b r c n = true ↔
      ((∀ c' < 9, cell b r c' ≠ n ∨ c = c') ∧ (∀ r' < 9, cell b r' c ≠ n ∨ r = r')) ∧
      ∀ i < 3, ∀ j < 3,
        cell b (r / 3 * 3 + i) (c / 3 * 3 + j) ≠ n ∨
          (r / 3 * 3 + i = r ∧ c / 3 * 3 + j = c) := by
  rw [possible]
  simp only [Bool.and_eq_true, List.all_eq_true, List.mem_range, Bool.not_eq_true',
    Bool.and_eq_false_iff, beq_eq_false_iff_ne, bne_eq_false_iff_eq, ne_eq,
    Bool.not_eq_false', beq_iff_eq]

/-- `possible` succeeds iff no *other* cell that shares the row, the column or
the block holds `num`. -/
theorem possible_true_iff (b : Grid) (r c n : Nat) (hr : r < 9) (hc : c < 9) :
    possible b r c n = true ↔
      ∀ r' c', r' < 9 → c' < 9 → sees r c r' c' → (r' ≠ r ∨ c' ≠ c) →
        cell b r' c' ≠ n := by
  rw [possible_eq_true_prop]
  constructor
  · rintro ⟨⟨hrow, hcol⟩, hblk⟩ r' c' hr' hc' hsee hne
    rcases hsee with h | h | h
    · subst h
      rcases hrow c' hc' with h1 | h1
      · exact h1
      · exact absurd h1.symm (by tauto)
    · subst h
      rcases hcol r' hr' with h1 | h1
      · exact h1
      · exact absurd h1.symm (by tauto)
    · obtain ⟨h1, h2⟩ := h
      have hi1 : r' = r / 3 * 3 + (r' - r / 3 * 3) := by omega
      have hi2 : r' - r / 3 * 3 < 3 := by omega
      have hj1 : c' = c / 3 * 3 + (c' - c / 3 * 3) := by omega
      have hj2 : c' - c / 3 * 3 < 3 := by omega
      rcases hblk _ hi2 _ hj2 with h3 | h3
      · rw [← hi1, ← hj1] at h3; exact h3
      · rw [← hi1, ← hj1] at h3; omega
  · intro h
    refine ⟨⟨?_, ?_⟩, ?_⟩
    · intro c' hc'
      by_cases he : c = c'
      · exact Or.inr he
      · exact Or.inl (h r c' hr hc' (Or.inl rfl) (Or.inr fun e => he e.symm))
    · intro r' hr'
      by_cases he : r = r'
      · exact Or.inr he
      · exact Or.inl (h r' c hr' hc (Or.inr (Or.inl rfl)) (Or.inl fun e => he e.symm))
    · intro i hi j hj
      by_cases he : r / 3 * 3 + i = r ∧ c / 3 * 3 + j = c
      · exact Or.inr he
      · refine Or.inl (h (r / 3 * 3 + i) (c / 3 * 3 + j) (by omega) (by omega)
          (Or.inr (Or.inr ⟨by omega, by omega⟩)) (by tauto))

/-- C1: `possible(grid, row, col, digit)` returns false iff `digit` already
occurs in the same row at a different column, in the same column at a
different row, or in the 3x3 block with origin `(row/3*3, col/3*3)` at a
different cell; the queried cell's own value is never compared, so a digit a
cell already holds does not self-reject. -/
theorem possible_false_iff (b : Grid) (r c n : Nat) :
    possible b r c n = false ↔
      (∃ c', c' < 9 ∧ c' ≠ c ∧ cell b r c' = n) ∨
      (∃ r', r' < 9 ∧ r' ≠ r ∧ cell b r' c = n) ∨
      (∃ r' c', r / 3 * 3 ≤ r' ∧ r' < r / 3 * 3 + 3 ∧
        c / 3 * 3 ≤ c' ∧ c' < c / 3 * 3 + 3 ∧
        (r' ≠ r ∨ c' ≠ c) ∧ cell b r' c' = n) := by
  have hb : possible b r c n = false ↔ ¬possible b r c n = true := by
    cases possible b r c n <;> simp
  rw [hb, possible_eq_true_prop]
  push_neg
  constructor
  · intro h
    by_cases h1 : ∀ c' < 9, cell b r c' ≠ n ∨ c = c'
    · by_cases h2 : ∀ r' < 9, cell b r' c ≠ n ∨ r = r'
      · have h3 := h ⟨h1, h2⟩
        obtain ⟨i, hi, j, hj, hcell, hne⟩ := h3
        exact Or.inr (Or.inr ⟨r / 3 * 3 + i, c / 3 * 3 + j, by omega, by omega,
          by omega, by omega, by tauto, hcell⟩)
      · push_neg at h2
        obtain ⟨r', hr', hcell, hne⟩ := h2
        exact Or.inr (Or.inl ⟨r', hr', fun e => hne e.symm, hcell⟩)
    · push_neg at h1
      obtain ⟨c', hc', hcell, hne⟩ := h1
      exact Or.inl ⟨c', hc', fun e => hne e.symm, hcell⟩
  · rintro (⟨c', hc', hne, hcell⟩ | ⟨r', hr', hne, hcell⟩ |
      ⟨r', c', hr1, hr2, hc1, hc2, hne, hcell⟩) ⟨hrow, hcol⟩
    · rcases hrow c' hc' with h1 | h1
      · exact absurd hcell h1
      · exact absurd h1.symm hne
    · rcases hcol r' hr' with h1 | h1
      · exact absurd hcell h1
      · exact absurd h1.symm hne
    · refine ⟨r' - r / 3 * 3, by omega, c' - c / 3 * 3, by omega, ?_, by omega⟩
      have e1 : r / 3 * 3 + (r' - r / 3 * 3) = r' := by omega
      have e2 : c / 3 * 3 + (c' - c / 3 * 3) = c' := by omega
      rw [e1, e2]
      exact hcell

/-! ### The validator `Sudoku.check` (src/game.py:166-178)

`check(board)` walks every cell in row-major order; a cell failing
`_possible(r, c, board[r][c], board)` clears the `solved` flag, and is
appended to the error list when the *original* puzzle (`self.board`) is `0`
there. -/

/-- Body of the double loop of `Sudoku.check` for one cell. -/
def checkCellStep (orig board : Grid) (acc : Bool × List (Nat × Nat)) (r c : Nat) :
    Bool × List (Nat × Nat) :=
  if possible board r c (cell board r c) then acc
  else (false, if cell orig r c = 0 then acc.2 ++ [(r, c)] else acc.2)

/-- Inner (column) loop of `Sudoku.check`. -/
def checkCols (orig board : Grid) (r : Nat) :
    List Nat → Bool × List (Nat × Nat) → Bool × List (Nat × Nat)
  | [], acc => acc
  | c :: cs, acc => checkCols orig board r cs (checkCellStep orig board acc r c)

/-- Outer (row) loop of `Sudoku.check`. -/
def checkRows (orig board : Grid) :
    List Nat → Bool × List (Nat × Nat) → Bool × List (Nat × Nat)
  | [], acc => acc
  | r :: rs, acc => checkRows orig board rs (checkCols orig board r (List.range 9) acc)

/-- `Sudoku.check(board)`: `orig` plays the role of `self.board`, the puzzle
as generated; `board` is the candidate being validated. -/
def checkG (orig board : Grid) : Bool × List (Nat × Nat) :=
  checkRows orig board (List.range 9) (true, [])

/-- The errors contributed by row `r` over the listed columns. -/
def rowErrors (orig board : Grid) (r : Nat) (cs : List Nat) : List (Nat × Nat) :=
  (cs.filter fun c =>
    !possible board r c (cell board r c) && (cell orig r c == 0)).map fun c => (r, c)

theorem checkCols_spec (orig board : Grid) (r : Nat) (cs : List Nat)
    (acc : Bool × List (Nat × Nat)) :
    checkCols orig board r cs acc =
      (acc.1 && cs.all fun c => possible board r c (cell board r c),
       acc.2 ++ rowErrors orig board r cs) := by
  induction cs generalizing acc with
  | nil => simp [checkCols, rowErrors]
  | cons c cs ih =>
    rw [checkCols, ih]
    unfold checkCellStep rowErrors
    by_cases hp : possible board r c (cell board r c) = true
    · rw [if_pos hp]
      simp only [List.all_cons, hp, Bool.true_and, List.filter_cons]
      simp [hp]
    · rw [if_neg hp]
      simp only [Bool.not_eq_true] at hp
      simp only [List.all_cons, hp, Bool.false_and, Bool.and_false, Bool.false_and,
        List.filter_cons, Bool.not_false, Bool.true_and]
      by_cases ho : cell orig r c = 0
      · simp [ho, rowErrors, List.append_assoc]
      · simp only [if_neg ho]
        have : (cell orig r c == 0) = false := by simpa using ho
        simp [this, rowErrors]

theorem checkRows_spec (orig board : Grid) (rs : List Nat)
    (acc : Bool × List (Nat × Nat)) :
    checkRows orig board rs acc =
      (acc.1 && rs.all fun r => (List.range 9).all fun c =>
        possible board r c (cell board r c),
       acc.2 ++ (rs.map fun r => rowErrors orig board r (List.range 9)).flatten) := by
  induction rs generalizing acc with
  | nil => simp [checkRows]
  | cons r rs ih =>
    rw [checkRows, ih, checkCols_spec]
    simp [List.all_cons, Bool.and_assoc, List.append_assoc]

/-- The `solved` flag of `check` is true iff every cell of the 9x9 area
(with its current value, `0` included) passes `_possible`. -/
theorem checkG_fst_iff (orig board : Grid) :
    (checkG orig board).1 = true ↔
      ∀ r, r < 9 → ∀ c, c < 9 → possible board r c (cell board r c) = true := by
  rw [checkG, checkRows_spec]
  simp [List.all_eq_true, List.mem_range]

/-- Membership in the error list of `check`: exactly the in-range cells that
fail `_possible` and were empty in the original puzzle. -/
theorem checkG_mem_errors_iff (orig board : Grid) (r c : Nat) :
    (r, c) ∈ (checkG orig board).2 ↔
      r < 9 ∧ c < 9 ∧ possible board r c (cell board r c) = false ∧
        cell orig r c = 0 := by
  rw [checkG, checkRows_spec]
  simp only [Bool.true_and, List.nil_append, List.mem_flatten, List.mem_map]
  constructor
  · rintro ⟨l, ⟨r', hr', rfl⟩, hmem⟩
    unfold rowErrors at hmem
    simp only [List.mem_map, List.mem_filter, List.mem_range] at hmem
    obtain ⟨c', ⟨hc', hcond⟩, heq⟩ := hmem
    obtain ⟨e1, e2⟩ := Prod.mk.injEq .. ▸ heq
    · simp only [Bool.and_eq_true, Bool.not_eq_true', beq_iff_eq] at hcond
      subst e1; subst e2
      exact ⟨List.mem_range.1 hr', hc', hcond.1, hcond.2⟩
  · rintro ⟨hr, hc, hfail, horig⟩
    refine ⟨rowErrors orig board r (List.range 9), ⟨r, List.mem_range.2 hr, rfl⟩, ?_⟩
    unfold rowErrors
    simp only [List.mem_map, List.mem_filter, List.mem_range]
    exact ⟨c, ⟨hc, by simp [hfail, horig]⟩, rfl⟩

/-! ### Concrete boards used as witnesses and counterexamples -/

/-- The all-zero 9x9 board. -/
def zeros9 : Grid := List.replicate 9 (List.replicate 9 0)

/-- The lexicographically first complete legal grid: the completion that
row-major, lowest-candidate-first backtracking finds on an empty board. -/
def canonicalGrid : Grid :=
  [[1, 2, 3, 4, 5, 6, 7, 8, 9],
   [4, 5, 6, 7, 8, 9, 1, 2, 3],
   [7, 8, 9, 1, 2, 3, 4, 5, 6],
   [2, 1, 4, 3, 6, 5, 8, 9, 7],
   [3, 6, 5, 8, 9, 7, 2, 1, 4],
   [8, 9, 7, 2, 1, 4, 3, 6, 5],
   [5, 3, 1, 6, 4, 2, 9, 7, 8],
   [6, 4, 2, 9, 7, 8, 5, 3, 1],
   [9, 7, 8, 5, 3, 1, 6, 4, 2]]

/-- `canonicalGrid` with its last cell cleared: a consistent board with a
single empty cell. -/
def nearComplete : Grid := setCell canonicalGrid 8 8 0

/-- C3 counterexample: `nearComplete` still contains a zero (it is
incomplete), yet `check` reports `solved = true`, because the lone empty cell
is validated as the digit `0`, which occurs nowhere else.  This refutes
"a board that still contains zeros always returns `solved = false`". -/
theorem check_incomplete_board_reported_solved :
    cell nearComplete 8 8 = 0 ∧ (checkG nearComplete nearComplete).1 = true := by
  constructor
  · decide
  · decide

/-- C3 (amended): `check` returns `solved = true` iff every cell of the
candidate board — empty cells included, their digit `0` being compared like
any other value — passes `_possible`; consequently a board containing two
empty cells that share a row, column or block is reported unsolved, but an
incomplete board whose zeros are pairwise non-peer can be reported solved. -/
theorem check_solved_iff_all_cells_possible (orig board : Grid) :
    ((checkG orig board).1 = true ↔
      ∀ r, r < 9 → ∀ c, c < 9 → possible board r c (cell board r c) = true) ∧
    (∀ r c r' c', r < 9 → c < 9 → r' < 9 → c' < 9 → (r' ≠ r ∨ c' ≠ c) →
      sees r c r' c' → cell board r c = 0 → cell board r' c' = 0 →
      (checkG orig board).1 = false) := by
  refine ⟨checkG_fst_iff orig board, ?_⟩
  intro r c r' c' hr hc hr' hc' hne hsee hz hz'
  have hfail : possible board r c 0 = false := by
    cases hp : possible board r c 0
    · rfl
    · exact absurd hz' ((possible_true_iff board r c 0 hr hc).1 hp r' c' hr' hc' hsee hne)
  cases hres : (checkG orig board).1
  · rfl
  · exfalso
    have := (checkG_fst_iff orig board).1 hres r hr c hc
    rw [hz] at this
    rw [this] at hfail
    cases hfail

/-- C6: every coordinate reported in `check`'s conflict list satisfies
`original[row][col] = 0`; fixed givens are never flagged. -/
theorem check_errors_only_original_zeros (orig board : Grid) (p : Nat × Nat)
    (hp : p ∈ (checkG orig board).2) : cell orig p.1 p.2 = 0 := by
  obtain ⟨r, c⟩ := p
  exact ((checkG_mem_errors_iff orig board r c).1 hp).2.2.2

theorem check_errors_only_original_zeros_witness :
    (0, 0) ∈ (checkG zeros9 zeros9).2 ∧ cell zeros9 0 0 = 0 :=
  ⟨by decide, check_errors_only_original_zeros zeros9 zeros9 (0, 0) (by decide)⟩

/-- C10: `check` feeds the digit `0` of an empty cell to `_possible` like any
other value: the cell passes iff no *other* empty cell shares its row, column
or block, and an empty player-editable cell is reported as a conflict
whenever some other empty cell shares its row, column or block. -/
theorem check_treats_zero_as_value (orig board : Grid) (r c : Nat)
    (hr : r < 9) (hc : c < 9) (hz : cell board r c = 0) :
    (possible board r c 0 = true ↔
      ¬∃ r' c', r' < 9 ∧ c' < 9 ∧ (r' ≠ r ∨ c' ≠ c) ∧ sees r c r' c' ∧
        cell board r' c' = 0) ∧
    (cell orig r c = 0 →
      (∃ r' c', r' < 9 ∧ c' < 9 ∧ (r' ≠ r ∨ c' ≠ c) ∧ sees r c r' c' ∧
        cell board r' c' = 0) →
      (r, c) ∈ (checkG orig board).2) := by
  constructor
  · rw [possible_true_iff board r c 0 hr hc]
    constructor
    · rintro h ⟨r', c', h1, h2, h3, h4, h5⟩
      exact h r' c' h1 h2 h4 h3 h5
    · intro h r' c' h1 h2 h4 h3 h5
      exact h ⟨r', c', h1, h2, h3, h4, h5⟩
  · rintro ho ⟨r', c', h1, h2, h3, h4, h5⟩
    rw [checkG_mem_errors_iff]
    refine ⟨hr, hc, ?_, ho⟩
    rw [hz]
    cases hp : possible board r c 0
    · rfl
    · exact absurd h5 ((possible_true_iff board r c 0 hr hc).1 hp r' c' h1 h2 h4 h3)

theorem check_treats_zero_as_value_witness :
    (0, 1) ∈ (checkG zeros9 zeros9).2 :=
  (check_treats_zero_as_value zeros9 zeros9 0 1 (by decide) (by decide)
    (by decide)).2 (by decide)
    ⟨0, 0, by decide, by decide, by decide, by decide, by decide⟩

/-! ### The backtracking solver `Sudoku._solve` (src/game.py:213-230)

`_solve` finds the first empty cell; if none, it returns `True`.  Otherwise it
shuffles `1..9` (a fresh shuffle at *every* recursive call) and for each
candidate that `_possible` accepts, places it, recurses, undoes the placement
on failure, and returns `False` when the candidate list is exhausted.

The shuffle outcomes are modelled by a stream `s : Nat → List Nat` of
candidate lists together with a running index `k`; a run of the Python code
corresponds to a stream in which every `s n` is a permutation of `[1..9]`.
`fuel` bounds the recursion depth; every call places a non-zero digit in an
empty cell before recursing, so `82` is enough fuel for any 9x9 board. -/

/-- The `for i in nums` loop of `_solve`.  `f` is the recursive call used for
the sub-grid; the triple is (return value, board state, shuffle index). -/
def tryCands (f : Grid → Nat → Bool × Grid × Nat) :
    List Nat → Grid → Nat → Nat → Nat → Bool × Grid × Nat
  | [], b, _, _, k => (false, b, k)
  | i :: rest, b, r, c, k =>
    if possible b r c i then
      match f (setCell b r c i) k with
      | (true, b', k') => (true, b', k')
      | (false, b', k') => tryCands f rest (setCell b' r c 0) r c k'
    else tryCands f rest b r c k

/-- `Sudoku._solve`, with explicit fuel and shuffle stream. -/
def solveG (s : Nat → List Nat) : Nat → Grid → Nat → Bool × Grid × Nat
  | 0, b, k => (false, b, k)
  | fuel + 1, b, k =>
    match findEmpty b with
    | none => (true, b, k)
    | some (r, c) => tryCands (solveG s fuel) (s k) b r c (k + 1)

/-- Every `s n` is a permutation of `list(range(1, 10))`: exactly the lists
`random.shuffle` can produce for `nums`. -/
def validStream (s : Nat → List Nat) : Prop :=
  ∀ n, (s n).Perm [1, 2, 3, 4, 5, 6, 7, 8, 9]

theorem findEmptyInRow_none_iff (b : Grid) (r : Nat) (cs : List Nat) :
    findEmptyInRow b r cs = none ↔ ∀ c ∈ cs, cell b r c ≠ 0 := by
  induction cs with
  | nil => simp [findEmptyInRow]
  | cons c cs ih =>
    rw [findEmptyInRow]
    by_cases h : cell b r c = 0
    · simp [h]
    · simp [h, ih]

theorem findEmptyInRow_some (b : Grid) (r : Nat) (cs : List Nat) (p : Nat × Nat)
    (h : findEmptyInRow b r cs = some p) :
    p.1 = r ∧ p.2 ∈ cs ∧ cell b r p.2 = 0 := by
  induction cs with
  | nil => cases h
  | cons c cs ih =>
    rw [findEmptyInRow] at h
    by_cases hz : cell b r c = 0
    · rw [if_pos hz] at h
      cases h
      exact ⟨rfl, by simp, hz⟩
    · rw [if_neg hz] at h
      obtain ⟨h1, h2, h3⟩ := ih h
      exact ⟨h1, by simp [h2], h3⟩

theorem findEmptyRows_none_iff (b : Grid) (rs : List Nat) :
    findEmptyRows b rs = none ↔
      ∀ r ∈ rs, findEmptyInRow b r (List.range 9) = none := by
  induction rs with
  | nil => simp [findEmptyRows]
  | cons r rs ih =>
    rw [findEmptyRows]
    cases h : findEmptyInRow b r (List.range 9) with
    | some p => simp [h]
    | none => simp [h, ih]

theorem findEmptyRows_some (b : Grid) (rs : List Nat) (p : Nat × Nat)
    (h : findEmptyRows b rs = some p) :
    p.1 ∈ rs ∧ p.2 < 9 ∧ cell b p.1 p.2 = 0 := by
  induction rs with
  | nil => cases h
  | cons r rs ih =>
    rw [findEmptyRows] at h
    cases hrow : findEmptyInRow b r (List.range 9) with
    | some q =>
      rw [hrow] at h
      cases h
      obtain ⟨h1, h2, h3⟩ := findEmptyInRow_some b r _ p hrow
      exact ⟨by simp [h1], List.mem_range.1 h2, h1 ▸ h3⟩
    | none =>
      rw [hrow] at h
      obtain ⟨h1, h2, h3⟩ := ih h
      exact ⟨by simp [h1], h2, h3⟩

/-- `_find_empty` returns `None` exactly when the 9x9 area has no zero. -/
theorem findEmpty_none_iff (b : Grid) :
    findEmpty b = none ↔ completeG b := by
  rw [findEmpty, findEmptyRows_none_iff, completeG]
  constructor
  · intro h r hr c hc
    exact (findEmptyInRow_none_iff b r _).1 (h r (List.mem_range.2 hr)) c
      (List.mem_range.2 hc)
  · intro h r hr
    exact (findEmptyInRow_none_iff b r _).2 fun c hc =>
      h r (List.mem_range.1 hr) c (List.mem_range.1 hc)

/-- A hit of `_find_empty` is an in-range empty cell. -/
theorem findEmpty_some (b : Grid) (r c : Nat) (h : findEmpty b = some (r, c)) :
    r < 9 ∧ c < 9 ∧ cell b r c = 0 := by
  obtain ⟨h1, h2, h3⟩ := findEmptyRows_some b _ _ h
  exact ⟨List.mem_range.1 h1, h2, h3⟩

theorem setCell_setCell (b : Grid) (r c v w : Nat) :
    setCell (setCell b r c v) r c w = setCell b r c w := by
  unfold setCell
  by_cases hr : r < b.length
  · have : (b.set r ((b.getD r []).set c v)).getD r [] = (b.getD r []).set c v := by
      rw [List.getD_eq_getElem?_getD,
        List.getElem?_set_eq_of_lt _ hr]
      rfl
    rw [this, List.set_set, List.set_set]
  · have h1 : List.set b r ((b.getD r []).set c v) = b :=
      List.set_eq_of_length_le (by omega)
    rw [h1]

/-- Restoration: whenever the candidate loop fails, the board is back in the
state it had when the loop started (every tentative placement was undone). -/
theorem tryCands_false_grid (f : Grid → Nat → Bool × Grid × Nat)
    (hf : ∀ b k, (f b k).1 = false → (f b k).2.1 = b)
    (cands : List Nat) (b : Grid) (r c k : Nat) (hz : cell b r c = 0) :
    (tryCands f cands b r c k).1 = false → (tryCands f cands b r c k).2.1 = b := by
  induction cands generalizing b k with
  | nil => intro _; rfl
  | cons i rest ih =>
    rw [tryCands]
    by_cases hp : possible b r c i = true
    · rw [if_pos hp]
      rcases hrec : f (setCell b r c i) k with ⟨ok, b', k'⟩
      cases ok with
      | true => intro hfalse; exact absurd hfalse (by simp)
      | false =>
        have hb' : b' = setCell b r c i := by
          have := hf (setCell b r c i) k
          rw [hrec] at this
          exact this rfl
        have heq : setCell b' r c 0 = b := by
          rw [hb', setCell_setCell, setCell_zero_of_cell_zero b r c hz]
        show (tryCands f rest (setCell b' r c 0) r c k').1 = false →
          (tryCands f rest (setCell b' r c 0) r c k').2.1 = b
        rw [heq]
        exact ih b k' hz
    · rw [if_neg hp]
      exact ih b k hz

/-- Restoration, solver level: a `False` return leaves the board exactly as
it was at the call. -/
theorem solveG_false_grid (s : Nat → List Nat) (fuel : Nat) :
    ∀ b k, (solveG s fuel b k).1 = false → (solveG s fuel b k).2.1 = b := by
  induction fuel with
  | zero => intro b k _; rfl
  | succ fuel ih =>
    intro b k
    rw [solveG]
    cases hfe : findEmpty b with
    | none => intro hfalse; exact absurd hfalse (by simp)
    | some p =>
      obtain ⟨r, c⟩ := p
      exact tryCands_false_grid _ (fun b' k' => ih b' k') (s k) b r c (k + 1)
        (findEmpty_some b r c hfe).2.2

/-! ### Invariant machinery: consistency is preserved by solver placements -/

theorem sees_symm {r c r' c' : Nat} (h : sees r c r' c') : sees r' c' r c := by
  rcases h with h | h | h
  · exact Or.inl h.symm
  · exact Or.inr (Or.inl h.symm)
  · exact Or.inr (Or.inr ⟨h.1.symm, h.2.symm⟩)

theorem isGrid_rowlen (b : Grid) (hb : isGrid b) (r : Nat) (hr : r < 9) :
    (b.getD r []).length = 9 := by
  obtain ⟨hlen, hrows, _⟩ := hb
  have hrb : r < b.length := by omega
  rw [List.getD_eq_getElem?_getD, List.getElem?_eq_getElem hrb]
  exact hrows _ (List.getElem_mem hrb)

theorem cell_setCell_self9 (b : Grid) (hb : isGrid b) (r c v : Nat)
    (hr : r < 9) (hc : c < 9) : cell (setCell b r c v) r c = v := by
  apply cell_setCell_self
  · obtain ⟨hlen, _, _⟩ := hb
    omega
  · rw [isGrid_rowlen b hb r hr]; omega

theorem setCell_oob (b : Grid) (r c v : Nat)
    (h : ¬(r < b.length ∧ c < (b.getD r []).length)) : setCell b r c v = b := by
  unfold setCell
  by_cases hr : r < b.length
  · have hc : ¬c < (b.getD r []).length := by tauto
    have hset : (b.getD r []).set c v = b.getD r [] :=
      List.set_eq_of_length_le (by omega)
    rw [hset]
    have hrow : b[r]? = some (b.getD r []) := by
      rw [List.getD_eq_getElem?_getD, List.getElem?_eq_getElem hr]
      rfl
    exact set_self_of_getElem? _ _ _ hrow
  · exact List.set_eq_of_length_le (by omega)

theorem isGrid_setCell (b : Grid) (hb : isGrid b) (r c v : Nat) (hv : v ≤ 9) :
    isGrid (setCell b r c v) := by
  have hb' := hb
  obtain ⟨hlen, hrows, hval⟩ := hb'
  refine ⟨by rw [setCell, List.length_set]; exact hlen, ?_, ?_⟩
  · intro row hrow
    by_cases hrb : r < b.length
    · rw [setCell] at hrow
      rcases List.mem_or_eq_of_mem_set hrow with h | h
      · exact hrows row h
      · subst h
        rw [List.length_set]
        exact isGrid_rowlen b hb r (by omega)
    · rw [setCell_oob b r c v (by tauto)] at hrow
      exact hrows row hrow
  · intro r' hr' c' hc'
    by_cases h1 : r' = r ∧ c' = c
    · obtain ⟨e1, e2⟩ := h1
      subst e1; subst e2
      rw [cell_setCell_self9 b hb r' c' v hr' hc']
      exact hv
    · have hne : r' ≠ r ∨ c' ≠ c := by tauto
      rw [cell_setCell_ne _ _ _ _ _ _ hne]
      exact hval r' hr' c' hc'

/-- Number of empty cells in the 9x9 area: the solver's termination measure. -/
def countZeros9 (b : Grid) : Nat :=
  ((Finset.range 9 ×ˢ Finset.range 9).filter fun p => cell b p.1 p.2 = 0).card

theorem countZeros9_le (b : Grid) : countZeros9 b ≤ 81 := by
  calc countZeros9 b ≤ (Finset.range 9 ×ˢ Finset.range 9).card :=
        Finset.card_filter_le _ _
    _ = 81 := by rw [Finset.card_product, Finset.card_range]

theorem countZeros9_decrease (b : Grid) (hb : isGrid b) (r c v : Nat)
    (hr : r < 9) (hc : c < 9) (hz : cell b r c = 0) (hv : v ≠ 0) :
    countZeros9 (setCell b r c v) = countZeros9 b - 1 ∧ 1 ≤ countZeros9 b := by
  have hmem : (r, c) ∈
      (Finset.range 9 ×ˢ Finset.range 9).filter fun p => cell b p.1 p.2 = 0 := by
    rw [Finset.mem_filter, Finset.mem_product]
    exact ⟨⟨Finset.mem_range.2 hr, Finset.mem_range.2 hc⟩, hz⟩
  have hset :
      ((Finset.range 9 ×ˢ Finset.range 9).filter
          fun p => cell (setCell b r c v) p.1 p.2 = 0) =
        ((Finset.range 9 ×ˢ Finset.range 9).filter
          fun p => cell b p.1 p.2 = 0).erase (r, c) := by
    ext p
    obtain ⟨p1, p2⟩ := p
    rw [Finset.mem_erase, Finset.mem_filter, Finset.mem_filter, Finset.mem_product]
    constructor
    · rintro ⟨⟨m1, m2⟩, mz⟩
      by_cases h1 : p1 = r ∧ p2 = c
      · exfalso
        obtain ⟨e1, e2⟩ := h1
        subst e1; subst e2
        rw [cell_setCell_self9 b hb p1 p2 v (Finset.mem_range.1 m1)
          (Finset.mem_range.1 m2)] at mz
        exact hv mz
      · have hne : p1 ≠ r ∨ p2 ≠ c := by tauto
        rw [cell_setCell_ne _ _ _ _ _ _ hne] at mz
        exact ⟨by simpa [Prod.ext_iff] using h1, ⟨m1, m2⟩, mz⟩
    · rintro ⟨hne, ⟨m1, m2⟩, mz⟩
      have hne' : p1 ≠ r ∨ p2 ≠ c := by
        by_contra hcon
        push_neg at hcon
        exact hne (by simp [Prod.ext_iff]; omega)
      rw [cell_setCell_ne _ _ _ _ _ _ hne']
      exact ⟨⟨m1, m2⟩, mz⟩
  constructor
  · rw [countZeros9, countZeros9, hset, Finset.card_erase_of_mem hmem]
  · exact Finset.card_pos.2 ⟨(r, c), hmem⟩

/-- A legal placement preserves consistency. -/
theorem consistent_setCell_of_possible (b : Grid) (hb : isGrid b) (r c v : Nat)
    (hr : r < 9) (hc : c < 9) (hcons : consistent b)
    (hp : possible b r c v = true) : consistent (setCell b r c v) := by
  intro r1 hr1 c1 hc1 hnz
  by_cases h1 : r1 = r ∧ c1 = c
  · obtain ⟨e1, e2⟩ := h1
    subst e1; subst e2
    rw [cell_setCell_self9 b hb r1 c1 v hr1 hc1, possible_setCell_self]
    exact hp
  · have hne : r1 ≠ r ∨ c1 ≠ c := by tauto
    rw [cell_setCell_ne _ _ _ _ _ _ hne] at hnz ⊢
    rw [possible_true_iff _ _ _ _ hr1 hc1]
    intro r2 c2 hr2 hc2 hsee hne2
    by_cases h2 : r2 = r ∧ c2 = c
    · obtain ⟨e1, e2⟩ := h2
      subst e1; subst e2
      rw [cell_setCell_self9 b hb r2 c2 v hr2 hc2]
      intro heq
      exact (possible_true_iff b r2 c2 v hr2 hc2).1 hp r1 c1 hr1 hc1
        (sees_symm hsee) (by tauto) heq.symm
    · have hne3 : r2 ≠ r ∨ c2 ≠ c := by tauto
      rw [cell_setCell_ne _ _ _ _ _ _ hne3]
      exact (possible_true_iff b r1 c1 (cell b r1 c1) hr1 hc1).1
        (hcons r1 hr1 c1 hc1 hnz) r2 c2 hr2 hc2 hsee hne2

/-- Clearing a cell preserves consistency. -/
theorem consistent_setCell_zero (b : Grid) (hcons : consistent b) (r c : Nat) :
    consistent (setCell b r c 0) := by
  by_cases hin : r < b.length ∧ c < (b.getD r []).length
  · intro r1 hr1 c1 hc1 hnz
    by_cases h1 : r1 = r ∧ c1 = c
    · obtain ⟨e1, e2⟩ := h1
      subst e1; subst e2
      rw [cell_setCell_self b r1 c1 0 hin.1 hin.2] at hnz
      exact absurd rfl hnz
    · have hne : r1 ≠ r ∨ c1 ≠ c := by tauto
      rw [cell_setCell_ne _ _ _ _ _ _ hne] at hnz ⊢
      rw [possible_true_iff _ _ _ _ hr1 hc1]
      intro r2 c2 hr2 hc2 hsee hne2
      by_cases h2 : r2 = r ∧ c2 = c
      · obtain ⟨e1, e2⟩ := h2
        subst e1; subst e2
        rw [cell_setCell_self b r2 c2 0 hin.1 hin.2]
        exact fun heq => hnz heq.symm
      · have hne3 : r2 ≠ r ∨ c2 ≠ c := by tauto
        rw [cell_setCell_ne _ _ _ _ _ _ hne3]
        exact (possible_true_iff b r1 c1 (cell b r1 c1) hr1 hc1).1
          (hcons r1 hr1 c1 hc1 hnz) r2 c2 hr2 hc2 hsee hne2
  · rw [setCell_oob b r c 0 hin]
    exact hcons

/-- A cell value of any legal completion of `b` is acceptable for
`_possible` on `b` itself. -/
theorem completion_possible (b g : Grid) (hg : Completion b g) (r c : Nat)
    (hr : r < 9) (hc : c < 9) : possible b r c (cell g r c) = true := by
  obtain ⟨hgrid, hcomp, hlegal, hext⟩ := hg
  rw [possible_true_iff _ _ _ _ hr hc]
  intro r' c' hr' hc' hsee hne heq
  by_cases hz : cell b r' c' = 0
  · rw [hz] at heq
    exact hcomp r hr c hc heq.symm
  · have he := hext r' hr' c' hc' hz
    exact (possible_true_iff g r c (cell g r c) hr hc).1 (hlegal r hr c hc)
      r' c' hr' hc' hsee hne (by rw [he, heq])

/-- A grid with a legal completion is itself consistent. -/
theorem completion_consistent (b g : Grid) (hg : Completion b g) :
    consistent b := by
  intro r hr c hc hnz
  have he := hg.2.2.2 r hr c hc hnz
  rw [← he]
  exact completion_possible b g hg r c hr hc

/-- Writing a completion's own value into an empty cell keeps the
completion. -/
theorem completion_setCell (b g : Grid) (hb : isGrid b) (hg : Completion b g)
    (r c : Nat) (hr : r < 9) (hc : c < 9) :
    Completion (setCell b r c (cell g r c)) g := by
  obtain ⟨hgrid, hcomp, hlegal, hext⟩ := hg
  refine ⟨hgrid, hcomp, hlegal, ?_⟩
  intro r' hr' c' hc' hnz
  by_cases h1 : r' = r ∧ c' = c
  · obtain ⟨e1, e2⟩ := h1
    subst e1; subst e2
    rw [cell_setCell_self9 b hb r' c' _ hr' hc']
  · have hne : r' ≠ r ∨ c' ≠ c := by tauto
    rw [cell_setCell_ne _ _ _ _ _ _ hne] at hnz ⊢
    exact hext r' hr' c' hc' hnz

/-! ### Soundness and completeness of the backtracking search -/

theorem tryCands_true_sound (f : Grid → Nat → Bool × Grid × Nat)
    (hf : ∀ b k, isGrid b → consistent b → (f b k).1 = true →
      isGrid (f b k).2.1 ∧ consistent (f b k).2.1 ∧ completeG (f b k).2.1 ∧
        extendsG b (f b k).2.1)
    (hrest : ∀ b k, (f b k).1 = false → (f b k).2.1 = b)
    (cands : List Nat) (hcands : ∀ i ∈ cands, i ≤ 9) :
    ∀ b k, isGrid b → consistent b → cell b r c = 0 → r < 9 → c < 9 →
      (tryCands f cands b r c k).1 = true →
      isGrid (tryCands f cands b r c k).2.1 ∧
      consistent (tryCands f cands b r c k).2.1 ∧
      completeG (tryCands f cands b r c k).2.1 ∧
      extendsG b (tryCands f cands b r c k).2.1 := by
  induction cands with
  | nil =>
    intro b k _ _ _ _ _ h
    exact absurd h (by simp [tryCands])
  | cons i rest ih =>
    intro b k hb hcons hz hr hc
    rw [tryCands]
    by_cases hp : possible b r c i = true
    · rw [if_pos hp]
      rcases hrec : f (setCell b r c i) k with ⟨ok, b', k'⟩
      cases ok with
      | true =>
        intro _
        have hb1 : isGrid (setCell b r c i) :=
          isGrid_setCell b hb r c i (hcands i (by simp))
        have hc1 : consistent (setCell b r c i) :=
          consistent_setCell_of_possible b hb r c i hr hc hcons hp
        have hsound := hf (setCell b r c i) k hb1 hc1 (by rw [hrec])
        rw [hrec] at hsound
        obtain ⟨o1, o2, o3, o4⟩ := hsound
        show isGrid b' ∧ consistent b' ∧ completeG b' ∧ extendsG b b'
        refine ⟨o1, o2, o3, ?_⟩
        intro r1 hr1 c1 hc1' hnz
        by_cases h1 : r1 = r ∧ c1 = c
        · obtain ⟨e1, e2⟩ := h1
          subst e1; subst e2
          exact absurd hz hnz
        · have hne : r1 ≠ r ∨ c1 ≠ c := by tauto
          have := o4 r1 hr1 c1 hc1'
            (by rw [cell_setCell_ne _ _ _ _ _ _ hne]; exact hnz)
          rw [cell_setCell_ne _ _ _ _ _ _ hne] at this
          exact this
      | false =>
        have hb' : b' = setCell b r c i := by
          have := hrest (setCell b r c i) k
          rw [hrec] at this
          exact this rfl
        have heq : setCell b' r c 0 = b := by
          rw [hb', setCell_setCell, setCell_zero_of_cell_zero b r c hz]
        show (tryCands f rest (setCell b' r c 0) r c k').1 = true →
          isGrid (tryCands f rest (setCell b' r c 0) r c k').2.1 ∧
          consistent (tryCands f rest (setCell b' r c 0) r c k').2.1 ∧
          completeG (tryCands f rest (setCell b' r c 0) r c k').2.1 ∧
          extendsG b (tryCands f rest (setCell b' r c 0) r c k').2.1
        rw [heq]
        exact ih (fun j hj => hcands j (by simp [hj])) b k' hb hcons hz hr hc
    · rw [if_neg hp]
      exact ih (fun j hj => hcands j (by simp [hj])) b k hb hcons hz hr hc

/-- Soundness: a `True` return yields a complete, consistent, well-formed
board extending the input. -/
theorem solveG_true_sound (s : Nat → List Nat) (hs : validStream s) (fuel : Nat) :
    ∀ b k, isGrid b → consistent b → (solveG s fuel b k).1 = true →
      isGrid (solveG s fuel b k).2.1 ∧ consistent (solveG s fuel b k).2.1 ∧
      completeG (solveG s fuel b k).2.1 ∧ extendsG b (solveG s fuel b k).2.1 := by
  induction fuel with
  | zero =>
    intro b k _ _ h
    exact absurd h (by simp [solveG])
  | succ fuel ih =>
    intro b k hb hcons
    rw [solveG]
    cases hfe : findEmpty b with
    | none =>
      intro _
      exact ⟨hb, hcons, (findEmpty_none_iff b).1 hfe, fun r hr c hc _ => rfl⟩
    | some p =>
      obtain ⟨r, c⟩ := p
      obtain ⟨hr, hc, hz⟩ := findEmpty_some b r c hfe
      have hcand : ∀ i ∈ s k, i ≤ 9 := by
        intro i hi
        have := (hs k).mem_iff.1 hi
        simp only [List.mem_cons, List.not_mem_nil, or_false] at this
        omega
      exact tryCands_true_sound (solveG s fuel) (fun b' k' => ih b' k')
        (solveG_false_grid s fuel) (s k) hcand b (k + 1) hb hcons hz hr hc

theorem tryCands_complete (fuel : Nat) (f : Grid → Nat → Bool × Grid × Nat)
    (hrest : ∀ b k, (f b k).1 = false → (f b k).2.1 = b)
    (hfc : ∀ b k, isGrid b → (∃ g, Completion b g) → countZeros9 b < fuel →
      (f b k).1 = true)
    (cands : List Nat) (hcands : ∀ i ∈ cands, i ≤ 9) :
    ∀ b k, isGrid b → cell b r c = 0 → r < 9 → c < 9 → countZeros9 b ≤ fuel →
      ∀ g, Completion b g → cell g r c ∈ cands →
      (tryCands f cands b r c k).1 = true := by
  induction cands with
  | nil =>
    intro b k _ _ _ _ _ g _ hd
    cases hd
  | cons i rest ih =>
    intro b k hb hz hr hc hfuel g hg hd
    rw [tryCands]
    by_cases hp : possible b r c i = true
    · rw [if_pos hp]
      rcases hrec : f (setCell b r c i) k with ⟨ok, b', k'⟩
      cases ok with
      | true => rfl
      | false =>
        by_cases hid : i = cell g r c
        · exfalso
          have hnz : i ≠ 0 := by
            rw [hid]
            exact hg.2.1 r hr c hc
          obtain ⟨hdec, hpos⟩ := countZeros9_decrease b hb r c i hr hc hz hnz
          have hcompl : Completion (setCell b r c i) g := by
            rw [hid]
            exact completion_setCell b g hb hg r c hr hc
          have htrue := hfc (setCell b r c i) k
            (isGrid_setCell b hb r c i (hcands i (by simp)))
            ⟨g, hcompl⟩ (by omega)
          rw [hrec] at htrue
          exact Bool.false_ne_true htrue
        · have hb' : b' = setCell b r c i := by
            have := hrest (setCell b r c i) k
            rw [hrec] at this
            exact this rfl
          have heq : setCell b' r c 0 = b := by
            rw [hb', setCell_setCell, setCell_zero_of_cell_zero b r c hz]
          show (tryCands f rest (setCell b' r c 0) r c k').1 = true
          rw [heq]
          have hd' : cell g r c ∈ rest := by
            rcases List.mem_cons.1 hd with h | h
            · exact absurd h.symm hid
            · exact h
          exact ih (fun j hj => hcands j (by simp [hj])) b k' hb hz hr hc hfuel g hg hd'
    · rw [if_neg hp]
      by_cases hid : i = cell g r c
      · exfalso
        apply hp
        rw [hid]
        exact completion_possible b g hg r c hr hc
      · have hd' : cell g r c ∈ rest := by
          rcases List.mem_cons.1 hd with h | h
          · exact absurd h.symm hid
          · exact h
        exact ih (fun j hj => hcands j (by simp [hj])) b k hb hz hr hc hfuel g hg hd'

/-- Completeness: with enough fuel, a board with a legal completion is always
solved, whatever permutations the shuffle stream yields. -/
theorem solveG_complete (s : Nat → List Nat) (hs : validStream s) (fuel : Nat) :
    ∀ b k, isGrid b → (∃ g, Completion b g) → countZeros9 b < fuel →
      (solveG s fuel b k).1 = true := by
  induction fuel with
  | zero =>
    intro b k _ _ h
    omega
  | succ fuel ih =>
    intro b k hb hex hfuel
    rw [solveG]
    cases hfe : findEmpty b with
    | none => rfl
    | some p =>
      obtain ⟨r, c⟩ := p
      obtain ⟨hr, hc, hz⟩ := findEmpty_some b r c hfe
      obtain ⟨g, hg⟩ := hex
      have hd : cell g r c ∈ s k := by
        rw [(hs k).mem_iff]
        have h1 : cell g r c ≠ 0 := hg.2.1 r hr c hc
        have h2 : cell g r c ≤ 9 := hg.1.2.2 r hr c hc
        simp only [List.mem_cons, List.not_mem_nil, or_false]
        omega
      have hcand : ∀ i ∈ s k, i ≤ 9 := by
        intro i hi
        have := (hs k).mem_iff.1 hi
        simp only [List.mem_cons, List.not_mem_nil, or_false] at this
        omega
      exact tryCands_complete fuel (solveG s fuel) (solveG_false_grid s fuel)
        (fun b' k' => ih b' k') (s k) hcand b (k + 1) hb hz hr hc (by omega) g hg hd

/-! ### Solver claims -/

/-- The stream in which every shuffle returns `nums` unchanged. -/
def idStream : Nat → List Nat := fun _ => [1, 2, 3, 4, 5, 6, 7, 8, 9]

/-- A stream in which every shuffle swaps the first two candidates. -/
def swapStream : Nat → List Nat := fun _ => [2, 1, 3, 4, 5, 6, 7, 8, 9]

/-- A full board of fives: complete, so `_solve` succeeds at once, yet no
legal completion of it exists. -/
def allFives : Grid := List.replicate 9 (List.replicate 9 5)

/-- A consistent board with no legal completion: row 0 holds `1..8` with its
last cell empty, and a `9` sits directly below that cell, so nothing can fill
`(0, 8)`. -/
def stuckGrid : Grid :=
  [[1, 2, 3, 4, 5, 6, 7, 8, 0],
   [0, 0, 0, 0, 0, 0, 0, 0, 9]] ++ List.replicate 7 (List.replicate 9 0)

/-- Eighty nines and a single empty cell at the origin: any digit `1..8` may
legally be placed there, so the solved board depends on the candidate
order. -/
def almostNines : Grid := setCell (List.replicate 9 (List.replicate 9 9)) 0 0 0

theorem allFives_no_completion : ¬∃ g, Completion allFives g := by
  rintro ⟨g, hg⟩
  have h00 : cell g 0 0 = 5 := hg.2.2.2 0 (by omega) 0 (by omega) (by decide)
  have h01 : cell g 0 1 = 5 := hg.2.2.2 0 (by omega) 1 (by omega) (by decide)
  have hne := (possible_true_iff g 0 0 (cell g 0 0) (by omega) (by omega)).1
    (hg.2.2.1 0 (by omega) 0 (by omega)) 0 1 (by omega) (by omega)
    (Or.inl rfl) (by omega)
  rw [h00, h01] at hne
  exact hne rfl

theorem stuckGrid_no_completion : ¬∃ g, Completion stuckGrid g := by
  rintro ⟨g, hg⟩
  have hd9 : cell g 0 8 ≤ 9 := hg.1.2.2 0 (by omega) 8 (by omega)
  have hd0 : cell g 0 8 ≠ 0 := hg.2.1 0 (by omega) 8 (by omega)
  have hleg := (possible_true_iff g 0 8 (cell g 0 8) (by omega) (by omega)).1
    (hg.2.2.1 0 (by omega) 8 (by omega))
  have hrow : ∀ c', c' < 8 → cell g 0 c' = c' + 1 := by
    intro c' hc'
    have hfix := hg.2.2.2 0 (by omega) c' (by omega)
    interval_cases c' <;> simpa using hfix (by decide)
  have hne : ∀ c', c' < 8 → cell g 0 c' ≠ cell g 0 8 := fun c' hc' =>
    hleg 0 c' (by omega) (by omega) (Or.inl rfl) (by omega)
  have h18 : cell g 1 8 = 9 := hg.2.2.2 1 (by omega) 8 (by omega) (by decide)
  have hd9' : cell g 0 8 = 9 := by
    by_contra hne9
    have h1 : cell g 0 (cell g 0 8 - 1) = cell g 0 8 := by
      rw [hrow _ (by omega)]
      omega
    exact hne _ (by omega) h1
  have hcol := hleg 1 8 (by omega) (by omega) (Or.inr (Or.inl rfl)) (by omega)
  rw [h18, hd9'] at hcol
  exact hcol rfl

/-- C2: for every well-formed grid that has a legal completion and every
sequence of shuffle outcomes, `_solve` returns `True`, and the board it
leaves behind is completely filled, satisfies the row/column/block constraint
at every cell, and keeps all the original givens. -/
theorem solve_finds_completion (b : Grid) (s : Nat → List Nat) (k : Nat)
    (hb : isGrid b) (hs : validStream s) (hex : ∃ g, Completion b g) :
    (solveG s 82 b k).1 = true ∧
    completeG (solveG s 82 b k).2.1 ∧ legalG (solveG s 82 b k).2.1 ∧
    extendsG b (solveG s 82 b k).2.1 := by
  obtain ⟨g, hg⟩ := hex
  have hcons : consistent b := completion_consistent b g hg
  have htrue := solveG_complete s hs 82 b k hb ⟨g, hg⟩
    (by have := countZeros9_le b; omega)
  obtain ⟨o1, o2, o3, o4⟩ := solveG_true_sound s hs 82 b k hb hcons htrue
  refine ⟨htrue, o3, ?_, o4⟩
  intro r hr c hc
  exact o2 r hr c hc (o3 r hr c hc)

theorem solve_finds_completion_witness :
    (solveG idStream 82 nearComplete 0).1 = true ∧
    completeG (solveG idStream 82 nearComplete 0).2.1 ∧
    legalG (solveG idStream 82 nearComplete 0).2.1 ∧
    extendsG nearComplete (solveG idStream 82 nearComplete 0).2.1 :=
  solve_finds_completion nearComplete idStream 0 (by decide)
    (fun _ => List.Perm.refl _) ⟨canonicalGrid, by decide⟩

/-- C5 counterexample: `allFives` has no legal completion — two fives share
row 0 — yet `_solve` returns `True`: the board is already full, so the solver
succeeds immediately without checking the givens.  "No legal completion
implies a `False` return" therefore fails on the code. -/
theorem solve_true_despite_no_completion :
    validStream idStream ∧ (¬∃ g, Completion allFives g) ∧
    (solveG idStream 82 allFives 0).1 = true :=
  ⟨fun _ => List.Perm.refl _, allFives_no_completion, by decide⟩

/-- C5 (amended): for a well-formed grid whose *givens are consistent* and
which has no legal completion, `_solve` returns `False` and the board at the
top-level return is exactly the input board — every tentative placement was
undone.  (When the givens already conflict, the solver can instead return
`True` by filling every empty cell, as the counterexample shows; a `False`
return always leaves the board unchanged.) -/
theorem solve_fails_and_restores (b : Grid) (s : Nat → List Nat) (k : Nat)
    (hb : isGrid b) (hcons : consistent b) (hs : validStream s)
    (hnc : ¬∃ g, Completion b g) :
    (solveG s 82 b k).1 = false ∧ (solveG s 82 b k).2.1 = b := by
  cases hres : (solveG s 82 b k).1 with
  | false => exact ⟨rfl, solveG_false_grid s 82 b k hres⟩
  | true =>
    exfalso
    obtain ⟨o1, o2, o3, o4⟩ := solveG_true_sound s hs 82 b k hb hcons hres
    apply hnc
    refine ⟨(solveG s 82 b k).2.1, o1, o3, ?_, o4⟩
    intro r hr c hc
    exact o2 r hr c hc (o3 r hr c hc)

theorem solve_fails_and_restores_witness :
    (solveG idStream 82 stuckGrid 0).1 = false ∧
    (solveG idStream 82 stuckGrid 0).2.1 = stuckGrid :=
  solve_fails_and_restores stuckGrid idStream 0 (by decide) (by decide)
    (fun _ => List.Perm.refl _) stuckGrid_no_completion

/-- C4 counterexample: plain solving does *not* use the identity candidate
order — `_solve` shuffles `nums` at every recursive call — so two runs on
equal grids can return different boards.  Both streams below consist of
permutations of `1..9`, i.e. of lists `random.shuffle` can produce, yet on
the same input they yield different solved grids. -/
theorem solve_not_deterministic :
    validStream idStream ∧ validStream swapStream ∧
    (solveG idStream 82 almostNines 0).2.1 ≠
      (solveG swapStream 82 almostNines 0).2.1 :=
  ⟨fun _ => List.Perm.refl _, fun _ => List.Perm.swap 1 2 _, by decide⟩

/-- C4 (amended): the solver's result is deterministic only relative to the
shuffle stream; when every shuffle yields the identity (lowest-first) order,
solving the all-zeros grid succeeds and yields exactly the canonical
completion determined by row-major first-empty-cell selection and
lowest-candidate-first search. -/
theorem solve_identity_order_canonical :
    (solveG idStream 82 zeros9 0).1 = true ∧
    (solveG idStream 82 zeros9 0).2.1 = canonicalGrid := by
  have h : solveG idStream 82 zeros9 0 = (true, canonicalGrid, 391) := by decide
  rw [h]
  exact ⟨rfl, rfl⟩

/-! ### The generator: `Sudoku._fill_board`, `_remove_vals`, `generate`
(src/game.py:39-129)

`_fill_board` seeds the board: a shuffled first row, a first column built
from a second shuffled permutation with the three first-row values moved out
of the way and the tail re-shuffled, then the interior of the first block
filled by scanning the first row's permutation and overwriting the cell at
*every* legal candidate.  The three `random.shuffle` calls are oracle
inputs. -/

/-- Oracle for the three `random.shuffle` calls of `_fill_board`. -/
structure FillOracle where
  rowPerm : List Nat
  colPerm : List Nat
  tailShuffle : List Nat → List Nat

/-- The shuffles produce permutations: exactly what `random.shuffle` can do. -/
def validFillOracle (o : FillOracle) : Prop :=
  o.rowPerm.Perm [1, 2, 3, 4, 5, 6, 7, 8, 9] ∧
  o.colPerm.Perm [1, 2, 3, 4, 5, 6, 7, 8, 9] ∧
  ∀ l, (o.tailShuffle l).Perm l

/-- The board after `self.board.insert(0, row)`: the shuffled row on top of
eight zero rows. -/
def seedRows (row : List Nat) : Grid :=
  row :: List.replicate 8 (List.replicate 9 0)

/-- `col` after `col.remove(board[0][0])` and the two
`col.remove(board[0][i]); col.append(board[0][i])` fixups for `i = 1, 2`. -/
def colAdjusted (row col : List Nat) : List Nat :=
  let c1 := col.erase (cell (seedRows row) 0 0)
  let c2 := c1.erase (cell (seedRows row) 0 1) ++ [cell (seedRows row) 0 1]
  c2.erase (cell (seedRows row) 0 2) ++ [cell (seedRows row) 0 2]

/-- `col` after `col_tail = col[3:]; shuffle(col_tail); col[3:] = col_tail`. -/
def colShuffled (o : FillOracle) : List Nat :=
  let ca := colAdjusted o.rowPerm o.colPerm
  ca.take 3 ++ o.tailShuffle (ca.drop 3)

/-- `for r in range(1, 9): board[r][0] = col[r - 1]`: each `r - 1` is drawn
from `range 8`. -/
def writeColList (col : List Nat) : List Nat → Grid → Grid
  | [], b => b
  | r :: rs, b => writeColList col rs (setCell b (r + 1) 0 (col.getD r 0))

/-- `for num in row: if not possible: continue; board[r][c] = num` — the cell
is overwritten at *every* legal candidate, so the last one wins. -/
def fillCell (b : Grid) (r c : Nat) (cands : List Nat) : Grid :=
  cands.foldl (fun b' num => if possible b' r c num then setCell b' r c num else b') b

/-- The first-block interior fill, in source loop order:
`(1,1), (1,2), (2,1), (2,2)`. -/
def fillSquare (b : Grid) (row : List Nat) : Grid :=
  fillCell (fillCell (fillCell (fillCell b 1 1 row) 1 2 row) 2 1 row) 2 2 row

/-- `Sudoku._fill_board` (src/game.py:84-116). -/
def fillBoard (o : FillOracle) : Grid :=
  fillSquare (writeColList (colShuffled o) (List.range 8) (seedRows o.rowPerm))
    o.rowPerm

/-- The last element of `l`, or `dflt` when `l` is empty. -/
def lastKeep (l : List Nat) (dflt : Nat) : Nat := l.getLast?.getD dflt

theorem fillCell_cons (b : Grid) (r c i : Nat) (rest : List Nat) :
    fillCell b r c (i :: rest) =
      fillCell (if possible b r c i then setCell b r c i else b) r c rest := rfl

theorem fillCell_cell_other (b : Grid) (r c : Nat) (cands : List Nat)
    (r' c' : Nat) (h : r' ≠ r ∨ c' ≠ c) :
    cell (fillCell b r c cands) r' c' = cell b r' c' := by
  induction cands generalizing b with
  | nil => rfl
  | cons i rest ih =>
    rw [fillCell_cons]
    by_cases hp : possible b r c i = true
    · rw [if_pos hp, ih, cell_setCell_ne _ _ _ _ _ _ h]
    · rw [if_neg hp, ih]

/-- The candidate loop of the block fill: the final board is the original
one when no candidate is legal, and otherwise the original board with the
*last* legal candidate (in iteration order) written into the cell; the test
`possible` never depends on the cell's own provisional content. -/
theorem fillCell_eq (b : Grid) (r c : Nat) (cands : List Nat) :
    fillCell b r c cands =
      match (cands.filter fun n => possible b r c n).getLast? with
      | none => b
      | some n => setCell b r c n := by
  induction cands generalizing b with
  | nil => rfl
  | cons i rest ih =>
    rw [fillCell_cons, List.filter_cons]
    by_cases hp : possible b r c i = true
    · rw [if_pos hp, if_pos hp]
      rw [ih (setCell b r c i)]
      have hfeq : (rest.filter fun n => possible (setCell b r c i) r c n) =
          rest.filter fun n => possible b r c n := by
        apply List.filter_congr
        intro n _
        rw [possible_setCell_self]
      rw [hfeq]
      cases hf : rest.filter fun n => possible b r c n with
      | nil => rfl
      | cons x xs =>
        rw [List.getLast?_cons_cons]
        cases hl : (x :: xs).getLast? with
        | none => simp [List.getLast?] at hl
        | some n => exact setCell_setCell b r c i n
    · rw [if_neg hp, if_neg hp, ih]

/-! ### Facts about the seeded board -/

theorem getD_mem' (l : List Nat) (i : Nat) (hi : i < l.length) : l.getD i 0 ∈ l := by
  rw [List.getD_eq_getElem?_getD, List.getElem?_eq_getElem hi]
  exact List.getElem_mem hi

theorem getD_inj (l : List Nat) (hnd : l.Nodup) (i j : Nat)
    (hi : i < l.length) (hj : j < l.length) (hij : i ≠ j) :
    l.getD i 0 ≠ l.getD j 0 := by
  rw [List.getD_eq_getElem?_getD, List.getElem?_eq_getElem hi,
    List.getD_eq_getElem?_getD, List.getElem?_eq_getElem hj]
  simp only [Option.getD_some]
  intro h
  exact hij (hnd.getElem_inj_iff.1 h)

theorem perm_nine_facts (l : List Nat) (h : l.Perm [1, 2, 3, 4, 5, 6, 7, 8, 9]) :
    l.Nodup ∧ l.length = 9 ∧ ∀ x ∈ l, 1 ≤ x ∧ x ≤ 9 := by
  refine ⟨h.symm.nodup (by decide), by rw [h.length_eq]; rfl, ?_⟩
  intro x hx
  have hm := h.mem_iff.1 hx
  simp only [List.mem_cons, List.not_mem_nil, or_false] at hm
  omega

theorem cell_seedRows (row : List Nat) (i j : Nat) :
    cell (seedRows row) i j = if i = 0 then row.getD j 0 else 0 := by
  cases i with
  | zero => rfl
  | succ n =>
    rw [if_neg (Nat.succ_ne_zero n)]
    show ((List.replicate 8 (List.replicate 9 0)).getD n []).getD j 0 = 0
    rcases Nat.lt_or_ge n 8 with h8 | h8
    · have h1 : (List.replicate 8 (List.replicate 9 (0 : Nat))).getD n [] =
          List.replicate 9 0 := by
        rw [List.getD_eq_getElem?_getD,
          List.getElem?_eq_getElem (by simpa using h8)]
        simp only [Option.getD_some, List.getElem_replicate]
      rw [h1]
      rcases Nat.lt_or_ge j 9 with h9 | h9
      · rw [List.getD_eq_getElem?_getD,
          List.getElem?_eq_getElem (by simpa using h9)]
        simp only [Option.getD_some, List.getElem_replicate]
      · rw [List.getD_eq_getElem?_getD,
          List.getElem?_eq_none_iff.2 (by simpa using h9)]
        rfl
    · have h1 : (List.replicate 8 (List.replicate 9 (0 : Nat))).getD n [] =
          ([] : List Nat) := by
        rw [List.getD_eq_getElem?_getD,
          List.getElem?_eq_none_iff.2 (by simpa using h8)]
        rfl
      rw [h1]
      rfl

theorem seedRows_isGrid (row : List Nat)
    (hlen : row.length = 9) (hmem : ∀ x ∈ row, x ≤ 9) :
    isGrid (seedRows row) := by
  refine ⟨by simp [seedRows], ?_, ?_⟩
  · intro r hr
    rcases List.mem_cons.1 hr with h | h
    · rw [h]; exact hlen
    · rw [List.eq_of_mem_replicate h]
      simp
  · intro r hr c hc
    rw [cell_seedRows]
    by_cases h0 : r = 0
    · rw [if_pos h0]
      rcases Nat.lt_or_ge c row.length with hcl | hcl
      · exact hmem _ (getD_mem' row c hcl)
      · rw [List.getD_eq_getElem?_getD, List.getElem?_eq_none_iff.2 hcl]
        simp
    · rw [if_neg h0]
      omega

theorem colAdjusted_eq (row col : List Nat) :
    colAdjusted row col =
      ((col.erase (row.getD 0 0)).erase (row.getD 1 0) ++ [row.getD 1 0]).erase
          (row.getD 2 0) ++ [row.getD 2 0] := rfl

/-- Structure of the column pool after the fixups and the tail shuffle:
eight distinct digits, none equal to `row[0]`, and the two entries that will
seed rows 1-2 of column 0 also differ from `row[1]` and `row[2]`. -/
theorem colShuffled_facts (o : FillOracle) (ho : validFillOracle o) :
    (colShuffled o).length = 8 ∧
    (colShuffled o).Nodup ∧
    (∀ x ∈ colShuffled o, 1 ≤ x ∧ x ≤ 9) ∧
    o.rowPerm.getD 0 0 ∉ colShuffled o ∧
    (∀ i, i < 2 → ∀ j, j < 3 →
      (colShuffled o).getD i 0 ≠ o.rowPerm.getD j 0) := by
  obtain ⟨hr, hc, ht⟩ := ho
  obtain ⟨hrnd, hrlen, hrmem⟩ := perm_nine_facts _ hr
  obtain ⟨hcnd, hclen, hcmem⟩ := perm_nine_facts _ hc
  set va := o.rowPerm.getD 0 0 with hva
  set vb := o.rowPerm.getD 1 0 with hvb
  set vc := o.rowPerm.getD 2 0 with hvc
  have hvamem : va ∈ o.rowPerm := getD_mem' _ 0 (by omega)
  have hvbmem : vb ∈ o.rowPerm := getD_mem' _ 1 (by omega)
  have hvcmem : vc ∈ o.rowPerm := getD_mem' _ 2 (by omega)
  have hab : va ≠ vb := getD_inj _ hrnd 0 1 (by omega) (by omega) (by omega)
  have hac : va ≠ vc := getD_inj _ hrnd 0 2 (by omega) (by omega) (by omega)
  have hbc : vb ≠ vc := getD_inj _ hrnd 1 2 (by omega) (by omega) (by omega)
  have hvacol : va ∈ o.colPerm := hc.mem_iff.2 (by
    have := hrmem va hvamem
    simp only [List.mem_cons, List.not_mem_nil, or_false]
    omega)
  have hvbcol : vb ∈ o.colPerm := hc.mem_iff.2 (by
    have := hrmem vb hvbmem
    simp only [List.mem_cons, List.not_mem_nil, or_false]
    omega)
  have hvccol : vc ∈ o.colPerm := hc.mem_iff.2 (by
    have := hrmem vc hvcmem
    simp only [List.mem_cons, List.not_mem_nil, or_false]
    omega)
  set q := o.colPerm.erase va with hq
  have hqnd : q.Nodup := hcnd.erase va
  have hqmem : ∀ x, x ∈ q ↔ x ≠ va ∧ x ∈ o.colPerm := fun x => hcnd.mem_erase_iff
  have hqlen : q.length = 8 := by
    rw [hq, List.length_erase_of_mem hvacol, hclen]
  have hvbq : vb ∈ q := (hqmem vb).2 ⟨fun e => hab e.symm, hvbcol⟩
  have hvcq : vc ∈ q := (hqmem vc).2 ⟨fun e => hac e.symm, hvccol⟩
  have hvcqe : vc ∈ q.erase vb := (hqnd.mem_erase_iff).2 ⟨hbc.symm, hvcq⟩
  set front := (q.erase vb).erase vc with hfront
  have hfrnd : front.Nodup := (hqnd.erase vb).erase vc
  have hfrlen : front.length = 6 := by
    rw [hfront, List.length_erase_of_mem hvcqe, List.length_erase_of_mem hvbq, hqlen]
  have hfrmem : ∀ x, x ∈ front ↔ x ≠ vc ∧ x ≠ vb ∧ x ≠ va ∧ x ∈ o.colPerm := by
    intro x
    rw [hfront, (hqnd.erase vb).mem_erase_iff, hqnd.mem_erase_iff, hqmem]
  have hca : colAdjusted o.rowPerm o.colPerm = front ++ [vb, vc] := by
    rw [colAdjusted_eq, ← hva, ← hvb, ← hvc, ← hq,
      List.erase_append]
    rw [if_pos hvcqe, ← hfront, List.append_assoc]
    rfl
  have hcand : (colAdjusted o.rowPerm o.colPerm).Nodup := by
    rw [hca, List.nodup_append]
    refine ⟨hfrnd, by simp [hbc], ?_⟩
    intro x hx
    have := (hfrmem x).1 hx
    simp only [List.mem_cons, List.not_mem_nil, or_false]
    tauto
  have hcamem : ∀ x, x ∈ colAdjusted o.rowPerm o.colPerm ↔
      (x = vb ∨ x = vc ∨ x ∈ front) := by
    intro x
    rw [hca]
    simp only [List.mem_append, List.mem_cons, List.not_mem_nil, or_false]
    tauto
  have hcalen : (colAdjusted o.rowPerm o.colPerm).length = 8 := by
    rw [hca, List.length_append, hfrlen]
    rfl
  have htake : (colAdjusted o.rowPerm o.colPerm).take 3 = front.take 3 := by
    rw [hca, List.take_append_of_le_length (by omega)]
  have hperm : (colShuffled o).Perm (colAdjusted o.rowPerm o.colPerm) := by
    rw [colShuffled]
    calc ((colAdjusted o.rowPerm o.colPerm).take 3 ++
            o.tailShuffle ((colAdjusted o.rowPerm o.colPerm).drop 3)).Perm
          ((colAdjusted o.rowPerm o.colPerm).take 3 ++
            (colAdjusted o.rowPerm o.colPerm).drop 3) :=
        List.Perm.append_left _ (ht _)
      _ = colAdjusted o.rowPerm o.colPerm := List.take_append_drop _ _
  refine ⟨by rw [hperm.length_eq, hcalen], hperm.symm.nodup hcand, ?_, ?_, ?_⟩
  · intro x hx
    rcases (hcamem x).1 (hperm.mem_iff.1 hx) with h | h | h
    · exact hcmem x (h ▸ hvbcol)
    · exact hcmem x (h ▸ hvccol)
    · exact hcmem x ((hfrmem x).1 h).2.2.2
  · intro hx
    rcases (hcamem va).1 (hperm.mem_iff.1 hx) with h | h | h
    · exact hab h
    · exact hac h
    · exact ((hfrmem va).1 h).2.2.1 rfl
  · intro i hi j hj
    have hgetd : (colShuffled o).getD i 0 = (front.take 3).getD i 0 := by
      rw [colShuffled, ← htake]
      exact List.getD_append _ _ _ i (by rw [List.length_take]; omega)
    have hmem3 : (front.take 3).getD i 0 ∈ front :=
      List.take_subset 3 front (getD_mem' _ i (by rw [List.length_take]; omega))
    have hfacts := (hfrmem _).1 hmem3
    rw [hgetd]
    interval_cases j
    · exact hfacts.2.2.1
    · exact hfacts.2.1
    · exact hfacts.1

theorem writeColList_isGrid (col : List Nat) (hcol : ∀ n, col.getD n 0 ≤ 9) :
    ∀ rs, (∀ x ∈ rs, x < 8) → ∀ b, isGrid b → isGrid (writeColList col rs b) := by
  intro rs
  induction rs with
  | nil =>
    intro _ b hb
    exact hb
  | cons r rs ih =>
    intro hrs b hb
    rw [writeColList]
    exact ih (fun x hx => hrs x (by simp [hx])) _
      (isGrid_setCell b hb (r + 1) 0 _ (hcol r))

theorem writeColList_cell (col : List Nat) (hcol : ∀ n, col.getD n 0 ≤ 9) :
    ∀ rs, (∀ x ∈ rs, x < 8) → ∀ b, isGrid b → ∀ i j,
      cell (writeColList col rs b) i j =
        if j = 0 ∧ 1 ≤ i ∧ (i - 1) ∈ rs then col.getD (i - 1) 0
        else cell b i j := by
  intro rs
  induction rs with
  | nil =>
    intro _ b _ i j
    rw [writeColList, if_neg]
    simp
  | cons r rs ih =>
    intro hrs b hb i j
    rw [writeColList]
    rw [ih (fun x hx => hrs x (by simp [hx])) _
      (isGrid_setCell b hb (r + 1) 0 _ (hcol r)) i j]
    by_cases h1 : j = 0 ∧ 1 ≤ i ∧ i - 1 ∈ rs
    · rw [if_pos h1, if_pos ⟨h1.1, h1.2.1, by simp [h1.2.2]⟩]
    · rw [if_neg h1]
      by_cases h2 : i = r + 1 ∧ j = 0
      · obtain ⟨e1, e2⟩ := h2
        subst e1; subst e2
        rw [cell_setCell_self9 b hb _ _ _ (by have := hrs r (by simp); omega)
          (by omega)]
        rw [if_pos ⟨rfl, by omega, by simp⟩]
        simp
      · have hne : i ≠ r + 1 ∨ j ≠ 0 := by tauto
        rw [cell_setCell_ne _ _ _ _ _ _ hne]
        rw [if_neg]
        intro hcon
        obtain ⟨hj0, hi1, hmem⟩ := hcon
        rcases List.mem_cons.1 hmem with h | h
        · exact absurd ⟨by omega, hj0⟩ h2
        · exact h1 ⟨hj0, hi1, h⟩

/-- The board after row 0 and column 0 are written: well-formed, and its
cells are the first-row permutation on row 0, the column pool on column 0,
and zero elsewhere. -/
theorem seeded_facts (o : FillOracle) (ho : validFillOracle o) :
    isGrid (writeColList (colShuffled o) (List.range 8) (seedRows o.rowPerm)) ∧
    ∀ i j, i < 9 → j < 9 →
      cell (writeColList (colShuffled o) (List.range 8) (seedRows o.rowPerm)) i j =
        if i = 0 then o.rowPerm.getD j 0
        else if j = 0 then (colShuffled o).getD (i - 1) 0 else 0 := by
  obtain ⟨hrnd, hrlen, hrmem⟩ := perm_nine_facts _ ho.1
  obtain ⟨hslen, hsnd, hsmem, hsnota, hsfirst⟩ := colShuffled_facts o ho
  have hcol : ∀ n, (colShuffled o).getD n 0 ≤ 9 := by
    intro n
    rcases Nat.lt_or_ge n 8 with h | h
    · exact (hsmem _ (getD_mem' _ n (by omega))).2
    · rw [List.getD_eq_getElem?_getD, List.getElem?_eq_none_iff.2 (by omega)]
      simp
  have hbase : isGrid (seedRows o.rowPerm) :=
    seedRows_isGrid _ hrlen fun x hx => (hrmem x hx).2
  have hrange : ∀ x ∈ List.range 8, x < 8 := fun x hx => List.mem_range.1 hx
  refine ⟨writeColList_isGrid _ hcol _ hrange _ hbase, ?_⟩
  intro i j hi hj
  rw [writeColList_cell _ hcol _ hrange _ hbase i j, cell_seedRows]
  by_cases hi0 : i = 0
  · subst hi0
    rw [if_neg (by omega)]
    simp
  · rw [if_neg hi0]
    by_cases hj0 : j = 0
    · subst hj0
      rw [if_pos ⟨rfl, by omega, List.mem_range.2 (by omega)⟩]
      simp [hi0]
    · rw [if_neg (by tauto)]
      simp [hi0, hj0]

/-- Consistency of the board after the row-0 / column-0 seeding. -/
theorem seeded_consistent (o : FillOracle) (ho : validFillOracle o) :
    consistent (writeColList (colShuffled o) (List.range 8) (seedRows o.rowPerm)) := by
  obtain ⟨hrnd, hrlen, hrmem⟩ := perm_nine_facts _ ho.1
  obtain ⟨hslen, hsnd, hsmem, hsnota, hsfirst⟩ := colShuffled_facts o ho
  obtain ⟨hbg, hdesc⟩ := seeded_facts o ho
  intro r hr c hc hnz
  rw [possible_true_iff _ _ _ _ hr hc]
  intro r2 c2 hr2 hc2 hsee hne2
  rw [hdesc r c hr hc] at hnz ⊢
  rw [hdesc r2 c2 hr2 hc2]
  by_cases hr0 : r = 0
  · subst hr0
    rw [if_pos rfl] at hnz ⊢
    by_cases hr20 : r2 = 0
    · subst hr20
      rw [if_pos rfl]
      have hcc : c2 ≠ c := by tauto
      exact getD_inj _ hrnd c2 c (by omega) (by omega) hcc
    · rw [if_neg hr20]
      by_cases hc20 : c2 = 0
      · rw [if_pos hc20]
        have hwmem : (colShuffled o).getD (r2 - 1) 0 ∈ colShuffled o :=
          getD_mem' _ _ (by omega)
        rcases hsee with h | h | h
        · omega
        · have hcz : c = 0 := by omega
          subst hcz
          intro heq
          exact hsnota (heq ▸ hwmem)
        · have hcle : c < 3 := by omega
          have hrle : r2 - 1 < 2 := by omega
          exact hsfirst _ hrle c hcle
      · rw [if_neg hc20]
        intro heq
        exact hnz heq.symm
  · rw [if_neg hr0] at hnz ⊢
    have hcz : c = 0 := by
      by_contra hcc
      rw [if_neg hcc] at hnz
      exact hnz rfl
    subst hcz
    rw [if_pos rfl] at hnz ⊢
    by_cases hr20 : r2 = 0
    · subst hr20
      rw [if_pos rfl]
      have hwmem : (colShuffled o).getD (r - 1) 0 ∈ colShuffled o :=
        getD_mem' _ _ (by omega)
      rcases hsee with h | h | h
      · omega
      · subst h
        intro heq
        exact hsnota (heq.symm ▸ hwmem)
      · have hc2le : c2 < 3 := by omega
        have hrle : r - 1 < 2 := by omega
        intro heq
        exact hsfirst _ hrle c2 hc2le heq.symm
    · rw [if_neg hr20]
      by_cases hc20 : c2 = 0
      · rw [if_pos hc20]
        have hrr : r2 ≠ r := by tauto
        exact getD_inj _ hsnd (r2 - 1) (r - 1) (by omega) (by omega) (by omega)
      · rw [if_neg hc20]
        intro heq
        exact hnz heq.symm

theorem fillCell_isGrid (r c : Nat) (cands : List Nat)
    (hcands : ∀ n ∈ cands, n ≤ 9) :
    ∀ b, isGrid b → isGrid (fillCell b r c cands) := by
  induction cands with
  | nil =>
    intro b hb
    exact hb
  | cons i rest ih =>
    intro b hb
    rw [fillCell_cons]
    by_cases hp : possible b r c i = true
    · rw [if_pos hp]
      exact ih (fun n hn => hcands n (by simp [hn])) _
        (isGrid_setCell b hb r c i (hcands i (by simp)))
    · rw [if_neg hp]
      exact ih (fun n hn => hcands n (by simp [hn])) b hb

theorem fillCell_keeps (r c : Nat) (hr : r < 9) (hc : c < 9) (cands : List Nat)
    (hcands : ∀ n ∈ cands, n ≤ 9) :
    ∀ b, isGrid b → consistent b →
      isGrid (fillCell b r c cands) ∧ consistent (fillCell b r c cands) := by
  induction cands with
  | nil =>
    intro b hb hcons
    exact ⟨hb, hcons⟩
  | cons i rest ih =>
    intro b hb hcons
    rw [fillCell_cons]
    by_cases hp : possible b r c i = true
    · rw [if_pos hp]
      exact ih (fun n hn => hcands n (by simp [hn])) _
        (isGrid_setCell b hb r c i (hcands i (by simp)))
        (consistent_setCell_of_possible b hb r c i hr hc hcons hp)
    · rw [if_neg hp]
      exact ih (fun n hn => hcands n (by simp [hn])) b hb hcons

/-- The freshly seeded board is well-formed and consistent: every non-zero
value appears at most once per row, column and block. -/
theorem fillBoard_facts (o : FillOracle) (ho : validFillOracle o) :
    isGrid (fillBoard o) ∧ consistent (fillBoard o) := by
  obtain ⟨hrnd, hrlen, hrmem⟩ := perm_nine_facts _ ho.1
  have hcands : ∀ n ∈ o.rowPerm, n ≤ 9 := fun n hn => (hrmem n hn).2
  obtain ⟨hb1, _⟩ := seeded_facts o ho
  have hc1 := seeded_consistent o ho
  rw [fillBoard, fillSquare]
  have h2 := fillCell_keeps 1 1 (by omega) (by omega) _ hcands _ hb1 hc1
  have h3 := fillCell_keeps 1 2 (by omega) (by omega) _ hcands _ h2.1 h2.2
  have h4 := fillCell_keeps 2 1 (by omega) (by omega) _ hcands _ h3.1 h3.2
  exact fillCell_keeps 2 2 (by omega) (by omega) _ hcands _ h4.1 h4.2

theorem fillCell_cell_self (b : Grid) (hb : isGrid b) (r c : Nat)
    (hr : r < 9) (hc : c < 9) (cands : List Nat) :
    cell (fillCell b r c cands) r c =
      lastKeep (cands.filter fun n => possible b r c n) (cell b r c) := by
  rw [fillCell_eq]
  cases hf : (cands.filter fun n => possible b r c n).getLast? with
  | none =>
    show cell b r c = lastKeep (cands.filter fun n => possible b r c n) (cell b r c)
    unfold lastKeep
    rw [hf]
    rfl
  | some n =>
    show cell (setCell b r c n) r c =
      lastKeep (cands.filter fun n => possible b r c n) (cell b r c)
    unfold lastKeep
    rw [hf]
    exact cell_setCell_self9 b hb r c n hr hc

/-- C9: in the first-block interior fill, each of the four cells `(1,1)`,
`(1,2)`, `(2,1)`, `(2,2)`, processed in that order, ends up holding the
*last* candidate, in row 0's permutation order, that satisfies `possible`
against the board as it stood when the cell was processed (and keeps its
previous content when no candidate is legal): the loop has no early exit,
every legal candidate overwrites the cell, only the final legal one is
kept. -/
theorem fillSquare_last_legal (b : Grid) (hb : isGrid b) (row : List Nat)
    (hrow : ∀ n ∈ row, n ≤ 9) :
    cell (fillSquare b row) 1 1 =
      lastKeep (row.filter fun n => possible b 1 1 n) (cell b 1 1) ∧
    cell (fillSquare b row) 1 2 =
      lastKeep (row.filter fun n => possible (fillCell b 1 1 row) 1 2 n)
        (cell (fillCell b 1 1 row) 1 2) ∧
    cell (fillSquare b row) 2 1 =
      lastKeep (row.filter fun n =>
          possible (fillCell (fillCell b 1 1 row) 1 2 row) 2 1 n)
        (cell (fillCell (fillCell b 1 1 row) 1 2 row) 2 1) ∧
    cell (fillSquare b row) 2 2 =
      lastKeep (row.filter fun n =>
          possible (fillCell (fillCell (fillCell b 1 1 row) 1 2 row) 2 1 row) 2 2 n)
        (cell (fillCell (fillCell (fillCell b 1 1 row) 1 2 row) 2 1 row) 2 2) := by
  have hb1 : isGrid (fillCell b 1 1 row) := fillCell_isGrid 1 1 row hrow b hb
  have hb2 : isGrid (fillCell (fillCell b 1 1 row) 1 2 row) :=
    fillCell_isGrid 1 2 row hrow _ hb1
  have hb3 : isGrid (fillCell (fillCell (fillCell b 1 1 row) 1 2 row) 2 1 row) :=
    fillCell_isGrid 2 1 row hrow _ hb2
  refine ⟨?_, ?_, ?_, ?_⟩
  · rw [fillSquare, fillCell_cell_other _ _ _ _ _ _ (by omega),
      fillCell_cell_other _ _ _ _ _ _ (by omega),
      fillCell_cell_other _ _ _ _ _ _ (by omega)]
    exact fillCell_cell_self b hb 1 1 (by omega) (by omega) row
  · rw [fillSquare, fillCell_cell_other _ _ _ _ _ _ (by omega),
      fillCell_cell_other _ _ _ _ _ _ (by omega)]
    exact fillCell_cell_self _ hb1 1 2 (by omega) (by omega) row
  · rw [fillSquare, fillCell_cell_other _ _ _ _ _ _ (by omega)]
    exact fillCell_cell_self _ hb2 2 1 (by omega) (by omega) row
  · rw [fillSquare]
    exact fillCell_cell_self _ hb3 2 2 (by omega) (by omega) row

theorem fillSquare_last_legal_witness :
    cell (fillSquare zeros9 [1, 2, 3, 4, 5, 6, 7, 8, 9]) 1 1 =
      lastKeep ([1, 2, 3, 4, 5, 6, 7, 8, 9].filter fun n => possible zeros9 1 1 n)
        (cell zeros9 1 1) :=
  (fillSquare_last_legal zeros9 (by decide) [1, 2, 3, 4, 5, 6, 7, 8, 9]
    (by decide)).1

/-! ### Cell removal and the full generator -/

/-- The difficulty table of `Sudoku.__init__` (src/game.py:32-36):
`list(range(28, 35))`, `list(range(34, 41))`, `list(range(40, 47))`. -/
inductive Difficulty where
  | easy
  | medium
  | hard

def difficulties : Difficulty → List Nat
  | .easy => List.range' 28 7
  | .medium => List.range' 34 7
  | .hard => List.range' 40 7

/-- The `while removed < total_to_remove` loop of `_remove_vals`
(src/game.py:118-129).  `rnd t` models the pair of `randint(0, 8)` draws of
iteration `t`; `fuel` bounds the number of iterations, since the Python loop
does not terminate on adversarial random sequences (already-empty picks are
skipped without counting). -/
def removeLoop (rnd : Nat → Nat × Nat) : Nat → Nat → Nat → Grid → Option Grid
  | 0, remaining, _, b => if remaining = 0 then some b else none
  | fuel + 1, remaining, t, b =>
    if remaining = 0 then some b
    else
      if cell b (rnd t).1 (rnd t).2 ≠ 0 then
        removeLoop rnd fuel (remaining - 1) (t + 1)
          (setCell b (rnd t).1 (rnd t).2 0)
      else
        removeLoop rnd fuel remaining (t + 1) b

/-- Oracle for every random draw `generate` makes. -/
structure GenOracle where
  fill : FillOracle
  solveStream : Nat → List Nat
  diffIdx : Nat
  removeRnd : Nat → Nat × Nat
  removeFuel : Nat

/-- The draws are what the `random` module can produce: shuffles are
permutations, `randint(0, len(diff_range) - 1)` is a valid index, and
`randint(0, 8)` twice is a coordinate pair below `(9, 9)`. -/
def validGenOracle (o : GenOracle) (d : Difficulty) : Prop :=
  validFillOracle o.fill ∧ validStream o.solveStream ∧
  o.diffIdx < (difficulties d).length ∧
  ∀ t, (o.removeRnd t).1 < 9 ∧ (o.removeRnd t).2 < 9

/-- `Sudoku.generate` (src/game.py:77-82): `_fill_board()`, `_solve()`
(its return value is ignored), `solution = deepcopy(board)`, then
`_remove_vals(difficulty)`; the result is the pair `(board, solution)`. -/
def generate (d : Difficulty) (o : GenOracle) : Option (Grid × Grid) :=
  let seeded := fillBoard o.fill
  let solved := (solveG o.solveStream 82 seeded 0).2.1
  let total := (difficulties d).getD o.diffIdx 0
  match removeLoop o.removeRnd o.removeFuel total 0 solved with
  | none => none
  | some board => some (board, solved)

/-- The cells where candidate board and solution disagree (within the 9x9
window). -/
def diffCells (b g : Grid) : Finset (Nat × Nat) :=
  (Finset.range 9 ×ˢ Finset.range 9).filter fun p => cell b p.1 p.2 ≠ cell g p.1 p.2

theorem cell_oob (b : Grid) (hb : isGrid b) (r c : Nat) (h : 9 ≤ r ∨ 9 ≤ c) :
    cell b r c = 0 := by
  rcases h with h | h
  · have h1 : b[r]? = none := List.getElem?_eq_none_iff.2 (by
      obtain ⟨hlen, _, _⟩ := hb
      omega)
    rw [cell_eq, h1]
    rfl
  · rcases Nat.lt_or_ge r 9 with hr | hr
    · show (b.getD r []).getD c 0 = 0
      rw [List.getD_eq_getElem?_getD, List.getElem?_eq_none_iff.2 (by
        rw [isGrid_rowlen b hb r hr]
        omega)]
      rfl
    · have h1 : b[r]? = none := List.getElem?_eq_none_iff.2 (by
        obtain ⟨hlen, _, _⟩ := hb
        omega)
      rw [cell_eq, h1]
      rfl

theorem solveG_result_facts (s : Nat → List Nat) (hs : validStream s)
    (b : Grid) (hb : isGrid b) (hcons : consistent b) (k : Nat) :
    isGrid (solveG s 82 b k).2.1 ∧ consistent (solveG s 82 b k).2.1 := by
  cases hres : (solveG s 82 b k).1 with
  | false =>
    rw [solveG_false_grid s 82 b k hres]
    exact ⟨hb, hcons⟩
  | true =>
    have h := solveG_true_sound s hs 82 b k hb hcons hres
    exact ⟨h.1, h.2.1⟩

theorem diffCells_self (g : Grid) : diffCells g g = ∅ := by
  ext p
  rw [diffCells, Finset.mem_filter]
  simp

theorem removeLoop_spec (rnd : Nat → Nat × Nat) (sol : Grid) :
    ∀ fuel remaining t b, isGrid b →
      (∀ p ∈ diffCells b sol, cell b p.1 p.2 = 0 ∧ cell sol p.1 p.2 ≠ 0) →
      ∀ bd, removeLoop rnd fuel remaining t b = some bd →
        isGrid bd ∧
        (diffCells bd sol).card = (diffCells b sol).card + remaining ∧
        ∀ p ∈ diffCells bd sol, cell bd p.1 p.2 = 0 ∧ cell sol p.1 p.2 ≠ 0 := by
  intro fuel
  induction fuel with
  | zero =>
    intro remaining t b hb hinv bd hsome
    rw [removeLoop] at hsome
    by_cases h0 : remaining = 0
    · rw [if_pos h0] at hsome
      cases hsome
      exact ⟨hb, by omega, hinv⟩
    · rw [if_neg h0] at hsome
      cases hsome
  | succ fuel ih =>
    intro remaining t b hb hinv bd hsome
    rw [removeLoop] at hsome
    by_cases h0 : remaining = 0
    · rw [if_pos h0] at hsome
      cases hsome
      exact ⟨hb, by omega, hinv⟩
    · rw [if_neg h0] at hsome
      by_cases hz : cell b (rnd t).1 (rnd t).2 ≠ 0
      · rw [if_pos hz] at hsome
        have hr9 : (rnd t).1 < 9 := by
          by_contra hcon
          exact hz (cell_oob b hb _ _ (Or.inl (by omega)))
        have hc9 : (rnd t).2 < 9 := by
          by_contra hcon
          exact hz (cell_oob b hb _ _ (Or.inr (by omega)))
        have hnotin : ((rnd t).1, (rnd t).2) ∉ diffCells b sol := by
          intro hmem
          exact hz (hinv _ hmem).1
        have heqcell : cell b (rnd t).1 (rnd t).2 = cell sol (rnd t).1 (rnd t).2 := by
          by_contra hcon
          exact hnotin (by
            rw [diffCells, Finset.mem_filter, Finset.mem_product]
            exact ⟨⟨Finset.mem_range.2 hr9, Finset.mem_range.2 hc9⟩, hcon⟩)
        have hinsert : diffCells (setCell b (rnd t).1 (rnd t).2 0) sol =
            insert ((rnd t).1, (rnd t).2) (diffCells b sol) := by
          ext p
          obtain ⟨p1, p2⟩ := p
          rw [Finset.mem_insert, diffCells, diffCells, Finset.mem_filter,
            Finset.mem_filter, Finset.mem_product]
          by_cases hp : p1 = (rnd t).1 ∧ p2 = (rnd t).2
          · obtain ⟨e1, e2⟩ := hp
            subst e1; subst e2
            constructor
            · intro _
              exact Or.inl rfl
            · intro _
              refine ⟨⟨Finset.mem_range.2 hr9, Finset.mem_range.2 hc9⟩, ?_⟩
              rw [cell_setCell_self b _ _ 0 (by obtain ⟨hl, _, _⟩ := hb; omega)
                (by rw [isGrid_rowlen b hb _ hr9]; omega)]
              rw [← heqcell]
              exact fun e => hz e.symm
          · have hne : p1 ≠ (rnd t).1 ∨ p2 ≠ (rnd t).2 := by tauto
            rw [cell_setCell_ne _ _ _ _ _ _ hne]
            constructor
            · intro hx
              exact Or.inr hx
            · rintro (hx | hx)
              · rw [Prod.mk.injEq] at hx
                exact absurd hx hp
              · exact hx
        have hb' : isGrid (setCell b (rnd t).1 (rnd t).2 0) :=
          isGrid_setCell b hb _ _ 0 (by omega)
        have hinv' : ∀ p ∈ diffCells (setCell b (rnd t).1 (rnd t).2 0) sol,
            cell (setCell b (rnd t).1 (rnd t).2 0) p.1 p.2 = 0 ∧
              cell sol p.1 p.2 ≠ 0 := by
          intro p hp
          rw [hinsert, Finset.mem_insert] at hp
          rcases hp with hp | hp
          · subst hp
            refine ⟨?_, ?_⟩
            · rw [cell_setCell_self b _ _ 0 (by obtain ⟨hl, _, _⟩ := hb; omega)
                (by rw [isGrid_rowlen b hb _ hr9]; omega)]
            · rw [← heqcell]
              exact hz
          · obtain ⟨p1, p2⟩ := p
            have hpne : p1 ≠ (rnd t).1 ∨ p2 ≠ (rnd t).2 := by
              by_contra hcon
              push_neg at hcon
              apply hnotin
              rw [← hcon.1, ← hcon.2]
              exact hp
            rw [cell_setCell_ne _ _ _ _ _ _ hpne]
            exact hinv _ hp
        obtain ⟨o1, o2, o3⟩ := ih (remaining - 1) (t + 1) _ hb' hinv' bd hsome
        refine ⟨o1, ?_, o3⟩
        rw [o2, hinsert, Finset.card_insert_of_not_mem hnotin]
        omega
      · rw [if_neg hz] at hsome
        exact ih remaining (t + 1) b hb hinv bd hsome

theorem removeLoop_consistent (rnd : Nat → Nat × Nat) :
    ∀ fuel remaining t b, consistent b →
      ∀ bd, removeLoop rnd fuel remaining t b = some bd → consistent bd := by
  intro fuel
  induction fuel with
  | zero =>
    intro remaining t b hcons bd hsome
    rw [removeLoop] at hsome
    by_cases h0 : remaining = 0
    · rw [if_pos h0] at hsome
      cases hsome
      exact hcons
    · rw [if_neg h0] at hsome
      cases hsome
  | succ fuel ih =>
    intro remaining t b hcons bd hsome
    rw [removeLoop] at hsome
    by_cases h0 : remaining = 0
    · rw [if_pos h0] at hsome
      cases hsome
      exact hcons
    · rw [if_neg h0] at hsome
      by_cases hz : cell b (rnd t).1 (rnd t).2 ≠ 0
      · rw [if_pos hz] at hsome
        exact ih _ _ _ (consistent_setCell_zero b hcons _ _) bd hsome
      · rw [if_neg hz] at hsome
        exact ih _ _ _ hcons bd hsome

theorem generate_inv (d : Difficulty) (og : GenOracle) (bd sol : Grid)
    (hgen : generate d og = some (bd, sol)) :
    sol = (solveG og.solveStream 82 (fillBoard og.fill) 0).2.1 ∧
    removeLoop og.removeRnd og.removeFuel ((difficulties d).getD og.diffIdx 0) 0
      ((solveG og.solveStream 82 (fillBoard og.fill) 0).2.1) = some bd := by
  simp only [generate] at hgen
  cases hrl : removeLoop og.removeRnd og.removeFuel
      ((difficulties d).getD og.diffIdx 0) 0
      ((solveG og.solveStream 82 (fillBoard og.fill) 0).2.1) with
  | none =>
    rw [hrl] at hgen
    simp at hgen
  | some board =>
    rw [hrl] at hgen
    simp only [Option.some.injEq, Prod.mk.injEq] at hgen
    obtain ⟨e1, e2⟩ := hgen
    subst e1
    exact ⟨e2.symm, rfl⟩

/-- C7: when `generate(difficulty)` terminates it returns `(board, solution)`
where the solution is the snapshot of the solved grid taken *before* removal
(a deep copy in the source, so mutating the board never changes it), and the
board equals the solution except at exactly `k` cells, each zeroed in the
board and filled in the solution; `k` is the element of the difficulty's
configured inclusive range picked by the `randint(0, len(range)-1)` draw, so
it always lies in that range (uniformity of the draw itself is a property of
the `random` module, modelled here as the oracle index). -/
theorem generate_board_minus_k (d : Difficulty) (o : GenOracle)
    (ho : validGenOracle o d) (bd sol : Grid)
    (hgen : generate d o = some (bd, sol)) :
    sol = (solveG o.solveStream 82 (fillBoard o.fill) 0).2.1 ∧
    (difficulties d).getD o.diffIdx 0 ∈ difficulties d ∧
    (diffCells bd sol).card = (difficulties d).getD o.diffIdx 0 ∧
    (∀ p ∈ diffCells bd sol, cell bd p.1 p.2 = 0 ∧ cell sol p.1 p.2 ≠ 0) ∧
    ∀ r c, r < 9 → c < 9 → (r, c) ∉ diffCells bd sol →
      cell bd r c = cell sol r c := by
  obtain ⟨hof, hos, hoi, hor⟩ := ho
  obtain ⟨hsol, hrl⟩ := generate_inv d o bd sol hgen
  obtain ⟨hsg, hsc⟩ := fillBoard_facts o.fill hof
  obtain ⟨hg2, hc2⟩ := solveG_result_facts o.solveStream hos _ hsg hsc 0
  subst hsol
  have hmem : (difficulties d).getD o.diffIdx 0 ∈ difficulties d := by
    rw [List.getD_eq_getElem?_getD, List.getElem?_eq_getElem hoi]
    exact List.getElem_mem hoi
  have hinv0 : ∀ p ∈ diffCells (solveG o.solveStream 82 (fillBoard o.fill) 0).2.1
      (solveG o.solveStream 82 (fillBoard o.fill) 0).2.1,
      cell (solveG o.solveStream 82 (fillBoard o.fill) 0).2.1 p.1 p.2 = 0 ∧
        cell (solveG o.solveStream 82 (fillBoard o.fill) 0).2.1 p.1 p.2 ≠ 0 := by
    intro p hp
    rw [diffCells_self] at hp
    exact absurd hp (Finset.not_mem_empty p)
  obtain ⟨o1, o2, o3⟩ := removeLoop_spec o.removeRnd _ o.removeFuel _ 0 _ hg2 hinv0
    bd hrl
  refine ⟨rfl, hmem, ?_, o3, ?_⟩
  · rw [o2, diffCells_self]
    simp
  · intro r c hr hc hnot
    by_contra hne
    exact hnot (by
      rw [diffCells, Finset.mem_filter, Finset.mem_product]
      exact ⟨⟨Finset.mem_range.2 hr, Finset.mem_range.2 hc⟩, hne⟩)

/-- C8: seeding always produces a structurally valid partial grid, and the
invariant "every non-zero value appears at most once per row, per column and
per 3x3 block" holds for the seeded board, for the board a solver call
returns (on success and on failure alike), and for both grids a terminating
`generate` call returns. -/
theorem seeding_and_solving_invariant (o : FillOracle) (ho : validFillOracle o)
    (s : Nat → List Nat) (hs : validStream s) (b : Grid) (hb : isGrid b)
    (hcons : consistent b) (k : Nat) (d : Difficulty) (og : GenOracle)
    (hog : validGenOracle og d) (bd sol : Grid)
    (hgen : generate d og = some (bd, sol)) :
    consistent (fillBoard o) ∧ consistent (solveG s 82 b k).2.1 ∧
    consistent sol ∧ consistent bd := by
  obtain ⟨hof, hos, hoi, hor⟩ := hog
  obtain ⟨hsol, hrl⟩ := generate_inv d og bd sol hgen
  obtain ⟨hsg, hsc⟩ := fillBoard_facts og.fill hof
  have hsolved := solveG_result_facts og.solveStream hos _ hsg hsc 0
  subst hsol
  exact ⟨(fillBoard_facts o ho).2, (solveG_result_facts s hs b hb hcons k).2,
    hsolved.2, removeLoop_consistent og.removeRnd og.removeFuel _ 0 _ hsolved.2
      bd hrl⟩

/-- A concrete oracle: identity shuffles, easiest difficulty index, and a
removal sequence that sweeps the cells row-major. -/
def witnessGenOracle : GenOracle where
  fill :=
    { rowPerm := [1, 2, 3, 4, 5, 6, 7, 8, 9]
      colPerm := [1, 2, 3, 4, 5, 6, 7, 8, 9]
      tailShuffle := fun l => l }
  solveStream := idStream
  diffIdx := 0
  removeRnd := fun t => (t / 9 % 9, t % 9)
  removeFuel := 30

/-- The solved grid `generate` produces from `witnessGenOracle`. -/
def witnessSolution : Grid :=
  [[1, 2, 3, 4, 5, 6, 7, 8, 9],
   [4, 9, 8, 1, 2, 7, 3, 5, 6],
   [5, 7, 6, 3, 8, 9, 1, 2, 4],
   [6, 1, 2, 5, 3, 4, 8, 9, 7],
   [7, 3, 4, 2, 9, 8, 5, 6, 1],
   [8, 5, 9, 6, 7, 1, 2, 4, 3],
   [9, 4, 5, 7, 1, 2, 6, 3, 8],
   [2, 6, 1, 8, 4, 3, 9, 7, 5],
   [3, 8, 7, 9, 6, 5, 4, 1, 2]]

/-- `witnessSolution` with the 28 removed cells zeroed. -/
def witnessBoard : Grid :=
  [[0, 0, 0, 0, 0, 0, 0, 0, 0],
   [0, 0, 0, 0, 0, 0, 0, 0, 0],
   [0, 0, 0, 0, 0, 0, 0, 0, 0],
   [0, 1, 2, 5, 3, 4, 8, 9, 7],
   [7, 3, 4, 2, 9, 8, 5, 6, 1],
   [8, 5, 9, 6, 7, 1, 2, 4, 3],
   [9, 4, 5, 7, 1, 2, 6, 3, 8],
   [2, 6, 1, 8, 4, 3, 9, 7, 5],
   [3, 8, 7, 9, 6, 5, 4, 1, 2]]

theorem witnessGenOracle_valid : validGenOracle witnessGenOracle Difficulty.easy :=
  ⟨⟨List.Perm.refl _, List.Perm.refl _, fun l => List.Perm.refl l⟩,
    fun _ => List.Perm.refl _, by decide,
    fun t => ⟨Nat.mod_lt _ (by omega), Nat.mod_lt _ (by omega)⟩⟩

theorem generate_board_minus_k_witness :
    witnessSolution =
      (solveG witnessGenOracle.solveStream 82 (fillBoard witnessGenOracle.fill)
        0).2.1 ∧
    (difficulties Difficulty.easy).getD witnessGenOracle.diffIdx 0 ∈
      difficulties Difficulty.easy ∧
    (diffCells witnessBoard witnessSolution).card =
      (difficulties Difficulty.easy).getD witnessGenOracle.diffIdx 0 ∧
    (∀ p ∈ diffCells witnessBoard witnessSolution,
      cell witnessBoard p.1 p.2 = 0 ∧ cell witnessSolution p.1 p.2 ≠ 0) ∧
    ∀ r c, r < 9 → c < 9 → (r, c) ∉ diffCells witnessBoard witnessSolution →
      cell witnessBoard r c = cell witnessSolution r c :=
  generate_board_minus_k Difficulty.easy witnessGenOracle witnessGenOracle_valid
    witnessBoard witnessSolution (by decide)

theorem seeding_and_solving_invariant_witness :
    consistent (fillBoard witnessGenOracle.fill) ∧
    consistent (solveG idStream 82 canonicalGrid 0).2.1 ∧
    consistent witnessSolution ∧ consistent witnessBoard :=
  seeding_and_solving_invariant witnessGenOracle.fill
    ⟨List.Perm.refl _, List.Perm.refl _, fun l => List.Perm.refl l⟩
    idStream (fun _ => List.Perm.refl _) canonicalGrid (by decide) (by decide) 0
    Difficulty.easy witnessGenOracle witnessGenOracle_valid
    witnessBoard witnessSolution (by decide)

end Sudoku
